import Mathlib

/-!
Verification of the AIP Analytics Engine (`internal/connectors/es`).

This file gives a shallow embedding of the engine's pure core — the cursor
codec (JSON + URL-safe unpadded base64), the paginated listing loop, the
streaming per-AIP aggregator, the percentile routine, the extension/format
mismatch predicate and the bounded top-K insertion — and proves the spec's
claims about them.

Modelling conventions:
* Go `int64` values are embedded as `Int`; sizes and counters never overflow
  in the claims at issue, so no modular wrap is modelled.
* Go `float64` appears (a) in the percentile rank computation, where the
  double arithmetic `int(float64(n-1)*float64(p)/100)` is exact for every
  feasible list length and is embedded as exact integer division, (b) in
  the `round2` rounding of averages, embedded over `ℚ`, and (c) as the
  carrier of JSON numbers, embedded as exact integers (`num`) and exact
  decimals (`dec`), which sidesteps binary rounding.
* JSON values are embedded as `SortValue` (string / number / boolean /
  null / array / object); the engine's cursors are produced from search-hit
  sort tuples, and `decodeCursor` accepts any JSON array.
* The Go standard library codecs the engine calls (`encoding/json` both
  directions, `encoding/base64` RawURLEncoding with its newline tolerance,
  UTF-8 with U+FFFD replacement, `strings.TrimSpace` over the full
  `unicode.IsSpace` set) are embedded as executable Lean functions below.
  Two corners of `encoding/json` are not modelled: the error on number
  literals outside the `float64` range (such as `1e999`), and the error on
  nesting deeper than the scanner's 10000-level cap.
-/

namespace AmOps

/-- Space predicate of `unicode.IsSpace`, as `strings.TrimSpace` uses it:
ASCII whitespace, NEL, NBSP, Ogham space mark, the Zs en/em/figure/thin
spaces U+2000-U+200A, the line and paragraph separators, narrow no-break
space, medium mathematical space and ideographic space. -/
def isSpaceChar (c : Char) : Bool :=
  c.toNat = 32 || c.toNat = 9 || c.toNat = 10 || c.toNat = 13 || c.toNat = 11 ||
    c.toNat = 12 || c.toNat = 133 || c.toNat = 160 || c.toNat = 5760 ||
    (8192 ≤ c.toNat && c.toNat ≤ 8202) || c.toNat = 8232 || c.toNat = 8233 ||
    c.toNat = 8239 || c.toNat = 8287 || c.toNat = 12288

/-- Embedding of `strings.TrimSpace` on character lists. -/
def trimChars (cs : List Char) : List Char :=
  ((cs.dropWhile isSpaceChar).reverse.dropWhile isSpaceChar).reverse

/-- Embedding of `strings.TrimSpace` on strings. -/
def trimStr (s : String) : String :=
  String.mk (trimChars s.toList)

/-- Embedding of `strings.ToLower` (the format table only needs ASCII). -/
def lowerStr (s : String) : String :=
  String.mk (s.toList.map Char.toLower)

theorem dropWhile_all_false {α : Type} {p : α → Bool} :
    ∀ l : List α, (∀ c ∈ l, p c = false) → l.dropWhile p = l := by
  intro l h
  cases l with
  | nil => rfl
  | cons c cs =>
      rw [List.dropWhile_cons, h c (by simp)]
      simp

theorem trimChars_eq_self {cs : List Char} (h : ∀ c ∈ cs, isSpaceChar c = false) :
    trimChars cs = cs := by
  unfold trimChars
  rw [dropWhile_all_false cs h, dropWhile_all_false cs.reverse (by simpa using h),
    List.reverse_reverse]

/-- A valid scalar codepoint below the surrogate range. -/
theorem validChar_of_lt {n : Nat} (h : n < 0xd800) : n.isValidChar :=
  Or.inl h

theorem charToNat_ofNat {n : Nat} (h : n.isValidChar) : (Char.ofNat n).toNat = n := by
  simp [Char.ofNat, Char.ofNatAux, Char.toNat, h, UInt32.toNat, BitVec.toNat_ofNatLt]

theorem char_eq_of_toNat {a b : Char} (h : a.toNat = b.toNat) : a = b := by
  rw [← Char.ofNat_toNat a, ← Char.ofNat_toNat b, h]

theorem string_mk_toList (s : String) : String.mk s.toList = s := by
  cases s
  rfl

/-- Codepoint of every character is a valid scalar value. -/
theorem char_toNat_valid (c : Char) :
    c.toNat < 0xd800 ∨ (0xdfff < c.toNat ∧ c.toNat < 0x110000) := by
  have h := c.valid
  rcases h with h | h
  · exact Or.inl h
  · exact Or.inr h

/-- Decimal digit character (the only digits the JSON integer printer emits). -/
def digitChar (d : Nat) : Char := Char.ofNat (48 + d)

/-- ASCII decimal digit test used by the JSON number scanner. -/
def isDigitChar (c : Char) : Bool := 48 ≤ c.toNat && c.toNat ≤ 57

/-- Numeric value of a decimal digit character. -/
def digitVal (c : Char) : Nat := c.toNat - 48

/-- Big-endian decimal digits of a positive number; fuelled recursion
(`fuel ≥ n` suffices). -/
def natDigitsAux : Nat → Nat → List Char
  | 0, _ => []
  | fuel + 1, n => if n = 0 then [] else natDigitsAux fuel (n / 10) ++ [digitChar (n % 10)]

/-- Decimal printing of a natural number, as `encoding/json` prints it. -/
def natToChars (n : Nat) : List Char :=
  if n = 0 then ['0'] else natDigitsAux n n

/-- Decimal printing of an `int64`, as `encoding/json` prints it. -/
def intToChars (n : Int) : List Char :=
  if n < 0 then '-' :: natToChars n.natAbs else natToChars n.natAbs

/-- Value of a big-endian decimal digit string. -/
def digitsToNat (ds : List Char) : Nat :=
  ds.foldl (fun acc c => acc * 10 + digitVal c) 0

theorem digitChar_toNat {d : Nat} (h : d < 10) : (digitChar d).toNat = 48 + d :=
  charToNat_ofNat (validChar_of_lt (by omega))

theorem isDigitChar_digitChar {d : Nat} (h : d < 10) : isDigitChar (digitChar d) = true := by
  simp [isDigitChar, digitChar_toNat h]
  omega

theorem digitVal_digitChar {d : Nat} (h : d < 10) : digitVal (digitChar d) = d := by
  simp [digitVal, digitChar_toNat h]

theorem digitsToNat_append_last (ds : List Char) (c : Char) :
    digitsToNat (ds ++ [c]) = digitsToNat ds * 10 + digitVal c := by
  unfold digitsToNat
  rw [List.foldl_append]
  rfl

theorem natDigitsAux_zero : ∀ fuel, natDigitsAux fuel 0 = [] := by
  intro fuel
  cases fuel <;> simp [natDigitsAux]

theorem natDigitsAux_spec :
    ∀ fuel n, 0 < n → n ≤ fuel →
      digitsToNat (natDigitsAux fuel n) = n ∧
      (∀ c ∈ natDigitsAux fuel n, isDigitChar c = true) ∧
      natDigitsAux fuel n ≠ [] := by
  intro fuel
  induction fuel with
  | zero => intro n h1 h2; omega
  | succ fuel ih =>
      intro n h1 h2
      have hne : ¬ n = 0 := by omega
      rw [natDigitsAux, if_neg hne]
      by_cases hq : n / 10 = 0
      · rw [hq, natDigitsAux_zero]
        refine ⟨?_, ?_, by simp⟩
        · rw [List.nil_append]
          have hone : digitsToNat [digitChar (n % 10)] = 0 * 10 + digitVal (digitChar (n % 10)) := rfl
          rw [hone, digitVal_digitChar (by omega)]
          omega
        · intro c hc
          simp at hc
          rw [hc]
          exact isDigitChar_digitChar (by omega)
      · have hle : n / 10 ≤ fuel := by omega
        have hpos : 0 < n / 10 := by omega
        obtain ⟨ihv, ihd, _⟩ := ih (n / 10) hpos hle
        refine ⟨?_, ?_, by simp⟩
        · rw [digitsToNat_append_last, ihv, digitVal_digitChar (by omega)]
          omega
        · intro c hc
          rw [List.mem_append] at hc
          rcases hc with hc | hc
          · exact ihd c hc
          · simp at hc
            rw [hc]
            exact isDigitChar_digitChar (by omega)

/-- Hexadecimal digit character, lowercase, as `encoding/json` emits in
`\u00xx` escapes. -/
def hexDigitChar (d : Nat) : Char :=
  if d < 10 then Char.ofNat (48 + d) else Char.ofNat (87 + d)

/-- Four-digit hexadecimal rendering of a codepoint below `0x10000`. -/
def hex4 (n : Nat) : List Char :=
  [hexDigitChar (n / 4096 % 16), hexDigitChar (n / 256 % 16),
    hexDigitChar (n / 16 % 16), hexDigitChar (n % 16)]

/-- Value of one hexadecimal digit byte (either letter case), `none`
otherwise, as `encoding/json` reads the digits of a `\uXXXX` escape. -/
def hexValByte (b : Nat) : Option Nat :=
  if 48 ≤ b ∧ b ≤ 57 then some (b - 48)
  else if 97 ≤ b ∧ b ≤ 102 then some (b - 87)
  else if 65 ≤ b ∧ b ≤ 70 then some (b - 55)
  else none

/-- Combined value of the four hexadecimal digit bytes of a `\uXXXX`
escape. -/
def hex4Val (h1 h2 h3 h4 : Nat) : Option Nat :=
  (hexValByte h1).bind (fun a =>
    (hexValByte h2).bind (fun b =>
      (hexValByte h3).bind (fun c =>
        (hexValByte h4).map (fun d => a * 4096 + b * 256 + c * 16 + d))))

/-- A JSON value as `json.Unmarshal` materializes the members of a `[]any`:
strings, numbers (integer-syntax numbers as `num n`, fractional or
exponent-syntax numbers as the exact decimal `dec m e`, standing for
`m * 10 ^ e`), booleans, null, nested arrays and nested objects. The entries
of the `sort` array of a search hit, and hence the tuples the cursor codec
round-trips (`encodeCursor` / `decodeCursor`), have this shape. Go stores
every JSON number as a `float64`; the exact-decimal embedding sidesteps
binary rounding, and the `float64` range overflow of extreme literals such
as `1e999` (which Go reports as an error) is the one unmodelled corner. -/
inductive SortValue where
  | str (s : String)
  | num (n : Int)
  | dec (m : Int) (e : Int)
  | boolean (b : Bool)
  | null
  | arr (elems : List SortValue)
  | obj (fields : List (String × SortValue))

/-- JSON string escaping exactly as Go's `encoding/json` encoder performs it
with its default HTML escaping: short escapes for quote, backslash and the
three whitespace controls, `\u00xx` for the remaining control characters and
for `<`, `>`, `&`, ` `/` ` for the two Unicode line separators, and
every other character copied verbatim. -/
def escapeChar (c : Char) : List Char :=
  if c = '"' then ['\\', '"']
  else if c = '\\' then ['\\', '\\']
  else if c = '\n' then ['\\', 'n']
  else if c = '\r' then ['\\', 'r']
  else if c = '\t' then ['\\', 't']
  else if c.toNat < 32 ∨ c = '<' ∨ c = '>' ∨ c = '&' ∨ c.toNat = 8232 ∨ c.toNat = 8233 then
    '\\' :: 'u' :: hex4 c.toNat
  else [c]

/-- Escape every character of a string body. -/
def escapeList : List Char → List Char
  | [] => []
  | c :: cs => escapeChar c ++ escapeList cs

mutual

/-- Serialization of one JSON value, as `json.Marshal` renders the members
of a `[]any`; a `dec m e` value prints in the exact scientific form
`<m>e<e>` (Go prints an equal-valued shortest decimal; both spellings parse
back to the same number). -/
def serializeValue : SortValue → List Char
  | .str s => '"' :: (escapeList s.toList ++ ['"'])
  | .num n => intToChars n
  | .dec m e => intToChars m ++ 'e' :: intToChars e
  | .boolean true => ['t', 'r', 'u', 'e']
  | .boolean false => ['f', 'a', 'l', 's', 'e']
  | .null => ['n', 'u', 'l', 'l']
  | .arr xs => '[' :: (serializeElems xs ++ [']'])
  | .obj fs => Char.ofNat 123 :: (serializeFields fs ++ [Char.ofNat 125])

/-- Comma-separated serialization of the array members. -/
def serializeElems : List SortValue → List Char
  | [] => []
  | [v] => serializeValue v
  | v :: v2 :: rest => serializeValue v ++ ',' :: serializeElems (v2 :: rest)

/-- Comma-separated serialization of the object fields. -/
def serializeFields : List (String × SortValue) → List Char
  | [] => []
  | [(k, v)] => '"' :: (escapeList k.toList ++ '"' :: ':' :: serializeValue v)
  | (k, v) :: f2 :: rest =>
    ('"' :: (escapeList k.toList ++ '"' :: ':' :: serializeValue v)) ++
      ',' :: serializeFields (f2 :: rest)

end

/-- Serialization of an array, as `json.Marshal` renders a `[]any`. -/
def serializeArray (xs : List SortValue) : List Char :=
  serializeValue (SortValue.arr xs)

theorem natToChars_spec (n : Nat) :
    digitsToNat (natToChars n) = n ∧
    (∀ c ∈ natToChars n, isDigitChar c = true) ∧
    natToChars n ≠ [] := by
  unfold natToChars
  by_cases h : n = 0
  · subst h
    refine ⟨by decide, ?_, by simp⟩
    intro c hc
    simp at hc
    subst hc
    decide
  · rw [if_neg h]
    exact natDigitsAux_spec n n (by omega) (le_refl n)

theorem hexDigitChar_toNat {d : Nat} (h : d < 16) :
    (hexDigitChar d).toNat = if d < 10 then 48 + d else 87 + d := by
  unfold hexDigitChar
  by_cases h10 : d < 10
  · rw [if_pos h10, if_pos h10]
    exact charToNat_ofNat (validChar_of_lt (by omega))
  · rw [if_neg h10, if_neg h10]
    exact charToNat_ofNat (validChar_of_lt (by omega))

theorem hexDigitChar_toNat_lt {d : Nat} (h : d < 16) : (hexDigitChar d).toNat < 128 := by
  rw [hexDigitChar_toNat h]
  by_cases h10 : d < 10
  · rw [if_pos h10]; omega
  · rw [if_neg h10]; omega

theorem hexValByte_hexDigitChar {d : Nat} (h : d < 16) :
    hexValByte (hexDigitChar d).toNat = some d := by
  rw [hexDigitChar_toNat h]
  by_cases h10 : d < 10
  · rw [if_pos h10]
    unfold hexValByte
    rw [if_pos (by omega)]
    simp only [Option.some.injEq]
    omega
  · rw [if_neg h10]
    unfold hexValByte
    rw [if_neg (by omega), if_pos (by omega)]
    simp only [Option.some.injEq]
    omega

theorem hex4_recompose {n : Nat} (h : n < 65536) :
    n / 4096 % 16 * 4096 + n / 256 % 16 * 256 + n / 16 % 16 * 16 + n % 16 = n := by
  omega

theorem hex4Val_hex4 {n : Nat} (h : n < 65536) :
    hex4Val (hexDigitChar (n / 4096 % 16)).toNat (hexDigitChar (n / 256 % 16)).toNat
      (hexDigitChar (n / 16 % 16)).toNat (hexDigitChar (n % 16)).toNat = some n := by
  unfold hex4Val
  rw [hexValByte_hexDigitChar (by omega), hexValByte_hexDigitChar (by omega),
    hexValByte_hexDigitChar (by omega), hexValByte_hexDigitChar (by omega)]
  simp only [Option.some_bind, Option.map_some', Option.some.injEq]
  exact hex4_recompose h

theorem takeWhile_append_strict {α : Type} {p : α → Bool} :
    ∀ (l r : List α), (∀ c ∈ l, p c = true) → (∀ c, r.head? = some c → p c = false) →
      (l ++ r).takeWhile p = l ∧ (l ++ r).dropWhile p = r := by
  intro l
  induction l with
  | nil =>
      intro r _ hr
      constructor
      · cases r with
        | nil => rfl
        | cons c cs =>
            simp only [List.nil_append, List.takeWhile_cons, hr c rfl]
            rfl
      · cases r with
        | nil => rfl
        | cons c cs =>
            simp only [List.nil_append, List.dropWhile_cons, hr c rfl]
            rfl
  | cons c cs ih =>
      intro r hl hr
      have hc : p c = true := hl c (by simp)
      obtain ⟨iht, ihd⟩ := ih r (fun x hx => hl x (by simp [hx])) hr
      constructor
      · simp only [List.cons_append, List.takeWhile_cons, hc, iht]
        rfl
      · simp only [List.cons_append, List.dropWhile_cons, hc, ihd]
        rfl

/-- UTF-8 encoding of one scalar value: Go strings are byte sequences and the
JSON text is handed to base64 as its UTF-8 bytes. -/
def utf8EncodeChar (c : Char) : List Nat :=
  if c.toNat < 128 then [c.toNat]
  else if c.toNat < 2048 then [192 + c.toNat / 64, 128 + c.toNat % 64]
  else if c.toNat < 65536 then
    [224 + c.toNat / 4096, 128 + c.toNat / 64 % 64, 128 + c.toNat % 64]
  else
    [240 + c.toNat / 262144, 128 + c.toNat / 4096 % 64, 128 + c.toNat / 64 % 64,
      128 + c.toNat % 64]

/-- UTF-8 encoding of a character sequence. -/
def utf8EncodeList : List Char → List Nat
  | [] => []
  | c :: cs => utf8EncodeChar c ++ utf8EncodeList cs

/-- Decoder for one UTF-8 sequence: given the lead byte and the remaining
input, returns the decoded character and the input after the sequence;
rejects truncated, malformed, overlong, surrogate and out-of-range
sequences. -/
def utf8DecodeStep (b : Nat) (rest : List Nat) : Option (Char × List Nat) :=
  if b < 128 then some (Char.ofNat b, rest)
  else if b < 192 then none
  else if b < 224 then
    match rest with
    | b2 :: rest2 =>
      if 128 ≤ b2 ∧ b2 < 192 then
        if 128 ≤ (b - 192) * 64 + (b2 - 128) then
          some (Char.ofNat ((b - 192) * 64 + (b2 - 128)), rest2)
        else none
      else none
    | [] => none
  else if b < 240 then
    match rest with
    | b2 :: b3 :: rest2 =>
      if 128 ≤ b2 ∧ b2 < 192 ∧ 128 ≤ b3 ∧ b3 < 192 then
        if 2048 ≤ (b - 224) * 4096 + (b2 - 128) * 64 + (b3 - 128) ∧
            ¬ (55296 ≤ (b - 224) * 4096 + (b2 - 128) * 64 + (b3 - 128) ∧
              (b - 224) * 4096 + (b2 - 128) * 64 + (b3 - 128) < 57344) then
          some (Char.ofNat ((b - 224) * 4096 + (b2 - 128) * 64 + (b3 - 128)), rest2)
        else none
      else none
    | _ => none
  else if b < 248 then
    match rest with
    | b2 :: b3 :: b4 :: rest2 =>
      if 128 ≤ b2 ∧ b2 < 192 ∧ 128 ≤ b3 ∧ b3 < 192 ∧ 128 ≤ b4 ∧ b4 < 192 then
        if 65536 ≤ (b - 240) * 262144 + (b2 - 128) * 4096 + (b3 - 128) * 64 + (b4 - 128) ∧
            (b - 240) * 262144 + (b2 - 128) * 4096 + (b3 - 128) * 64 + (b4 - 128) < 1114112 then
          some
            (Char.ofNat
              ((b - 240) * 262144 + (b2 - 128) * 4096 + (b3 - 128) * 64 + (b4 - 128)), rest2)
        else none
      else none
    | _ => none
  else none

theorem utf8EncodeChar_bytes_lt (c : Char) : ∀ b ∈ utf8EncodeChar c, b < 256 := by
  have hv := char_toNat_valid c
  unfold utf8EncodeChar
  by_cases h1 : c.toNat < 128
  · rw [if_pos h1]
    intro b hb
    simp at hb
    omega
  rw [if_neg h1]
  by_cases h2 : c.toNat < 2048
  · rw [if_pos h2]
    intro b hb
    simp at hb
    rcases hb with hb | hb <;> omega
  rw [if_neg h2]
  by_cases h3 : c.toNat < 65536
  · rw [if_pos h3]
    intro b hb
    simp at hb
    rcases hb with hb | hb | hb <;> omega
  · rw [if_neg h3]
    intro b hb
    simp at hb
    rcases hb with hb | hb | hb | hb <;> omega

theorem utf8DecodeStep_encode (c : Char) (bs : List Nat) :
    ∃ hb t, utf8EncodeChar c = hb :: t ∧ utf8DecodeStep hb (t ++ bs) = some (c, bs) ∧
      (128 ≤ c.toNat → 192 ≤ hb) := by
  have hv := char_toNat_valid c
  unfold utf8EncodeChar
  by_cases h1 : c.toNat < 128
  · rw [if_pos h1]
    refine ⟨c.toNat, [], rfl, ?_, by omega⟩
    unfold utf8DecodeStep
    rw [if_pos h1, Char.ofNat_toNat]
    rfl
  rw [if_neg h1]
  by_cases h2 : c.toNat < 2048
  · rw [if_pos h2]
    refine ⟨192 + c.toNat / 64, [128 + c.toNat % 64], rfl, ?_, by omega⟩
    unfold utf8DecodeStep
    have e1 : ¬ (192 + c.toNat / 64 < 128) := by omega
    have e2 : ¬ (192 + c.toNat / 64 < 192) := by omega
    have e3 : 192 + c.toNat / 64 < 224 := by omega
    have e4 : 128 ≤ 128 + c.toNat % 64 ∧ 128 + c.toNat % 64 < 192 := by omega
    have hrec : (192 + c.toNat / 64 - 192) * 64 + (128 + c.toNat % 64 - 128) = c.toNat := by
      omega
    simp only [List.cons_append, List.nil_append, if_neg e1, if_neg e2, if_pos e3, if_pos e4,
      hrec, if_pos (by omega : 128 ≤ c.toNat), Char.ofNat_toNat]
  rw [if_neg h2]
  by_cases h3 : c.toNat < 65536
  · rw [if_pos h3]
    refine ⟨224 + c.toNat / 4096, [128 + c.toNat / 64 % 64, 128 + c.toNat % 64], rfl, ?_,
      by omega⟩
    unfold utf8DecodeStep
    have e1 : ¬ (224 + c.toNat / 4096 < 128) := by omega
    have e2 : ¬ (224 + c.toNat / 4096 < 192) := by omega
    have e3 : ¬ (224 + c.toNat / 4096 < 224) := by omega
    have e4 : 224 + c.toNat / 4096 < 240 := by omega
    have e5 : 128 ≤ 128 + c.toNat / 64 % 64 ∧ 128 + c.toNat / 64 % 64 < 192 ∧
        128 ≤ 128 + c.toNat % 64 ∧ 128 + c.toNat % 64 < 192 := by omega
    have hrec : (224 + c.toNat / 4096 - 224) * 4096 + (128 + c.toNat / 64 % 64 - 128) * 64 +
        (128 + c.toNat % 64 - 128) = c.toNat := by omega
    have e6 : 2048 ≤ c.toNat ∧ ¬ (55296 ≤ c.toNat ∧ c.toNat < 57344) := by omega
    simp only [List.cons_append, List.nil_append, if_neg e1, if_neg e2, if_neg e3, if_pos e4,
      if_pos e5, hrec, if_pos e6, Char.ofNat_toNat]
  · rw [if_neg h3]
    refine ⟨240 + c.toNat / 262144,
      [128 + c.toNat / 4096 % 64, 128 + c.toNat / 64 % 64, 128 + c.toNat % 64], rfl, ?_,
      by omega⟩
    unfold utf8DecodeStep
    have e1 : ¬ (240 + c.toNat / 262144 < 128) := by omega
    have e2 : ¬ (240 + c.toNat / 262144 < 192) := by omega
    have e3 : ¬ (240 + c.toNat / 262144 < 224) := by omega
    have e4 : ¬ (240 + c.toNat / 262144 < 240) := by omega
    have e5 : 240 + c.toNat / 262144 < 248 := by omega
    have e6 : 128 ≤ 128 + c.toNat / 4096 % 64 ∧ 128 + c.toNat / 4096 % 64 < 192 ∧
        128 ≤ 128 + c.toNat / 64 % 64 ∧ 128 + c.toNat / 64 % 64 < 192 ∧
        128 ≤ 128 + c.toNat % 64 ∧ 128 + c.toNat % 64 < 192 := by omega
    have hrec : (240 + c.toNat / 262144 - 240) * 262144 +
        (128 + c.toNat / 4096 % 64 - 128) * 4096 +
        (128 + c.toNat / 64 % 64 - 128) * 64 + (128 + c.toNat % 64 - 128) = c.toNat := by omega
    have e7 : 65536 ≤ c.toNat ∧ c.toNat < 1114112 := by omega
    simp only [List.cons_append, List.nil_append, if_neg e1, if_neg e2, if_neg e3, if_neg e4,
      if_pos e5, if_pos e6, hrec, if_pos e7, Char.ofNat_toNat]

theorem utf8EncodeList_append (l r : List Char) :
    utf8EncodeList (l ++ r) = utf8EncodeList l ++ utf8EncodeList r := by
  induction l with
  | nil => rfl
  | cons c cs ih =>
      rw [List.cons_append, utf8EncodeList, utf8EncodeList, ih, List.append_assoc]

theorem utf8EncodeChar_ascii {c : Char} (h : c.toNat < 128) :
    utf8EncodeChar c = [c.toNat] := by
  unfold utf8EncodeChar
  rw [if_pos h]

theorem utf8EncodeList_ascii :
    ∀ cs : List Char, (∀ c ∈ cs, c.toNat < 128) →
      utf8EncodeList cs = cs.map Char.toNat := by
  intro cs
  induction cs with
  | nil => intro _; rfl
  | cons c cs ih =>
      intro h
      rw [utf8EncodeList, utf8EncodeChar_ascii (h c (by simp)), ih (fun x hx => h x (by simp [hx])),
        List.map_cons]
      rfl

theorem utf8EncodeList_cons_ascii {c : Char} (l : List Char) (h : c.toNat < 128) :
    utf8EncodeList (c :: l) = c.toNat :: utf8EncodeList l := by
  rw [utf8EncodeList, utf8EncodeChar_ascii h]
  rfl

/-- URL-safe base64 alphabet character for a 6-bit value
(`A-Z`, `a-z`, `0-9`, `-`, `_`). -/
def b64Char (n : Nat) : Char :=
  if n < 26 then Char.ofNat (65 + n)
  else if n < 52 then Char.ofNat (97 + (n - 26))
  else if n < 62 then Char.ofNat (48 + (n - 52))
  else if n = 62 then '-'
  else '_'

/-- Value of a URL-safe base64 alphabet character, `none` outside the
alphabet. -/
def b64Val (c : Char) : Option Nat :=
  if 65 ≤ c.toNat ∧ c.toNat ≤ 90 then some (c.toNat - 65)
  else if 97 ≤ c.toNat ∧ c.toNat ≤ 122 then some (c.toNat - 97 + 26)
  else if 48 ≤ c.toNat ∧ c.toNat ≤ 57 then some (c.toNat - 48 + 52)
  else if c.toNat = 45 then some 62
  else if c.toNat = 95 then some 63
  else none

/-- Embedding of `base64.RawURLEncoding.EncodeToString`: unpadded URL-safe base64 of a
byte sequence, three bytes to four characters, with two- and three-character
final groups for one and two trailing bytes. -/
def b64EncodeRec : List Nat → List Char
  | [] => []
  | [a] => [b64Char (a / 4), b64Char (a % 4 * 16)]
  | [a, b] => [b64Char (a / 4), b64Char (a % 4 * 16 + b / 16), b64Char (b % 16 * 4)]
  | a :: b :: c :: rest =>
    b64Char (a / 4) :: b64Char (a % 4 * 16 + b / 16) :: b64Char (b % 16 * 4 + c / 64) ::
      b64Char (c % 64) :: b64EncodeRec rest

/-- Core base64 group decoder: rejects a length of 1 modulo 4 and any
character outside the URL-safe alphabet; like Go's default (non-Strict)
decoder it discards non-zero trailing bits of a final partial group. Go's
decoder additionally ignores `\r` and `\n` anywhere in its input, which
`b64Decode` models by stripping them first. -/
def b64DecodeRec : List Char → Option (List Nat)
  | [] => some []
  | [_] => none
  | [c1, c2] =>
    (b64Val c1).bind (fun v1 => (b64Val c2).map (fun v2 => [v1 * 4 + v2 / 16]))
  | [c1, c2, c3] =>
    (b64Val c1).bind (fun v1 => (b64Val c2).bind (fun v2 => (b64Val c3).map
      (fun v3 => [v1 * 4 + v2 / 16, v2 % 16 * 16 + v3 / 4])))
  | c1 :: c2 :: c3 :: c4 :: rest =>
    (b64Val c1).bind (fun v1 => (b64Val c2).bind (fun v2 => (b64Val c3).bind
      (fun v3 => (b64Val c4).bind (fun v4 =>
        (b64DecodeRec rest).map (fun bs =>
          (v1 * 4 + v2 / 16) :: (v2 % 16 * 16 + v3 / 4) :: (v3 % 4 * 64 + v4) :: bs)))))

/-- Character filter of Go's base64 decoder: carriage returns and newlines
are ignored wherever they appear. -/
def notNewline (c : Char) : Bool :=
  !(c.toNat = 13 || c.toNat = 10)

/-- Embedding of `base64.RawURLEncoding.DecodeString`: strip `\r` and `\n`,
then decode the four-character groups of the unpadded URL-safe alphabet. -/
def b64Decode (cs : List Char) : Option (List Nat) :=
  b64DecodeRec (cs.filter notNewline)

theorem b64Val_b64Char {n : Nat} (h : n < 64) : b64Val (b64Char n) = some n := by
  unfold b64Char
  by_cases h1 : n < 26
  · rw [if_pos h1]
    have ht : (Char.ofNat (65 + n)).toNat = 65 + n := charToNat_ofNat (validChar_of_lt (by omega))
    unfold b64Val
    rw [ht, if_pos (by omega)]
    simp only [Option.some.injEq]
    omega
  rw [if_neg h1]
  by_cases h2 : n < 52
  · rw [if_pos h2]
    have ht : (Char.ofNat (97 + (n - 26))).toNat = 97 + (n - 26) :=
      charToNat_ofNat (validChar_of_lt (by omega))
    unfold b64Val
    rw [ht, if_neg (by omega), if_pos (by omega)]
    simp only [Option.some.injEq]
    omega
  rw [if_neg h2]
  by_cases h3 : n < 62
  · rw [if_pos h3]
    have ht : (Char.ofNat (48 + (n - 52))).toNat = 48 + (n - 52) :=
      charToNat_ofNat (validChar_of_lt (by omega))
    unfold b64Val
    rw [ht, if_neg (by omega), if_neg (by omega), if_pos (by omega)]
    simp only [Option.some.injEq]
    omega
  rw [if_neg h3]
  by_cases h4 : n = 62
  · rw [if_pos h4, h4]
    rfl
  · rw [if_neg h4]
    have h5 : n = 63 := by omega
    rw [h5]
    rfl

theorem b64Char_not_space (n : Nat) : isSpaceChar (b64Char n) = false := by
  unfold b64Char
  by_cases h1 : n < 26
  · rw [if_pos h1]
    have ht : (Char.ofNat (65 + n)).toNat = 65 + n := charToNat_ofNat (validChar_of_lt (by omega))
    simp [isSpaceChar, ht]
    omega
  rw [if_neg h1]
  by_cases h2 : n < 52
  · rw [if_pos h2]
    have ht : (Char.ofNat (97 + (n - 26))).toNat = 97 + (n - 26) :=
      charToNat_ofNat (validChar_of_lt (by omega))
    simp [isSpaceChar, ht]
    omega
  rw [if_neg h2]
  by_cases h3 : n < 62
  · rw [if_pos h3]
    have ht : (Char.ofNat (48 + (n - 52))).toNat = 48 + (n - 52) :=
      charToNat_ofNat (validChar_of_lt (by omega))
    simp [isSpaceChar, ht]
    omega
  rw [if_neg h3]
  by_cases h4 : n = 62
  · rw [if_pos h4]
    rfl
  · rw [if_neg h4]
    rfl

theorem b64EncodeRec_not_space :
    ∀ (bs : List Nat) (c : Char), c ∈ b64EncodeRec bs → isSpaceChar c = false := by
  intro bs
  induction bs using b64EncodeRec.induct with
  | case1 => intro c hc; simp [b64EncodeRec] at hc
  | case2 a =>
      intro c hc
      simp [b64EncodeRec] at hc
      rcases hc with hc | hc <;> rw [hc] <;> exact b64Char_not_space _
  | case3 a b =>
      intro c hc
      simp [b64EncodeRec] at hc
      rcases hc with hc | hc | hc <;> rw [hc] <;> exact b64Char_not_space _
  | case4 a b c0 rest ih =>
      intro c hc
      simp only [b64EncodeRec, List.mem_cons] at hc
      rcases hc with hc | hc | hc | hc | hc
      · rw [hc]; exact b64Char_not_space _
      · rw [hc]; exact b64Char_not_space _
      · rw [hc]; exact b64Char_not_space _
      · rw [hc]; exact b64Char_not_space _
      · exact ih c hc

theorem b64EncodeRec_ne_nil {bs : List Nat} (h : bs ≠ []) : b64EncodeRec bs ≠ [] := by
  match bs with
  | [] => exact absurd rfl h
  | [a] => simp [b64EncodeRec]
  | [a, b] => simp [b64EncodeRec]
  | a :: b :: c :: rest => simp [b64EncodeRec]

theorem b64_roundtrip :
    ∀ bs : List Nat, (∀ b ∈ bs, b < 256) → b64DecodeRec (b64EncodeRec bs) = some bs := by
  intro bs
  induction bs using b64EncodeRec.induct with
  | case1 => intro _; rfl
  | case2 a =>
      intro hlt
      have ha : a < 256 := hlt a (by simp)
      rw [b64EncodeRec]
      rw [b64DecodeRec]
      rw [b64Val_b64Char (by omega), b64Val_b64Char (by omega)]
      simp only [Option.some_bind, Option.map_some', Option.some.injEq, List.cons.injEq, and_true]
      omega
  | case3 a b =>
      intro hlt
      have ha : a < 256 := hlt a (by simp)
      have hb : b < 256 := hlt b (by simp)
      rw [b64EncodeRec]
      rw [b64DecodeRec]
      rw [b64Val_b64Char (by omega), b64Val_b64Char (by omega), b64Val_b64Char (by omega)]
      simp only [Option.some_bind, Option.map_some', Option.some.injEq, List.cons.injEq, and_true]
      constructor
      · omega
      · omega
  | case4 a b c rest ih =>
      intro hlt
      have ha : a < 256 := hlt a (by simp)
      have hb : b < 256 := hlt b (by simp)
      have hc : c < 256 := hlt c (by simp)
      have hrest : ∀ x ∈ rest, x < 256 := by
        intro x hx
        exact hlt x (by simp [hx])
      rw [b64EncodeRec]
      rw [b64DecodeRec]
      rw [b64Val_b64Char (by omega), b64Val_b64Char (by omega), b64Val_b64Char (by omega),
        b64Val_b64Char (by omega)]
      simp only [Option.some_bind, ih hrest, Option.map_some', Option.some.injEq,
        List.cons.injEq]
      refine ⟨by omega, by omega, by omega, trivial⟩

theorem notNewline_of_not_space {c : Char} (h : isSpaceChar c = false) :
    notNewline c = true := by
  unfold isSpaceChar at h
  unfold notNewline
  by_cases h13 : c.toNat = 13
  · rw [h13] at h
    simp at h
  by_cases h10 : c.toNat = 10
  · rw [h10] at h
    simp at h
  simp [h13, h10]

theorem b64Decode_encode {bs : List Nat} (h : ∀ b ∈ bs, b < 256) :
    b64Decode (b64EncodeRec bs) = some bs := by
  unfold b64Decode
  rw [List.filter_eq_self.mpr
    (fun c hc => notNewline_of_not_space (b64EncodeRec_not_space bs c hc))]
  exact b64_roundtrip bs h

theorem utf8EncodeList_bytes_lt : ∀ (cs : List Char), ∀ b ∈ utf8EncodeList cs, b < 256 := by
  intro cs
  induction cs with
  | nil => intro b hb; simp [utf8EncodeList] at hb
  | cons c cs ih =>
      intro b hb
      rw [utf8EncodeList, List.mem_append] at hb
      rcases hb with hb | hb
      · exact utf8EncodeChar_bytes_lt c b hb
      · exact ih b hb

theorem utf8EncodeChar_ne_nil (c : Char) : utf8EncodeChar c ≠ [] := by
  unfold utf8EncodeChar
  by_cases h1 : c.toNat < 128
  · rw [if_pos h1]; simp
  rw [if_neg h1]
  by_cases h2 : c.toNat < 2048
  · rw [if_pos h2]; simp
  rw [if_neg h2]
  by_cases h3 : c.toNat < 65536
  · rw [if_pos h3]; simp
  · rw [if_neg h3]; simp

/-- JSON inter-token whitespace bytes (space, tab, newline, carriage
return), exactly the set Go's JSON scanner skips between tokens. -/
def jsonWs (b : Nat) : Bool :=
  b = 32 || b = 9 || b = 10 || b = 13

/-- Skip inter-token whitespace. -/
def skipWs (bs : List Nat) : List Nat :=
  bs.dropWhile jsonWs

/-- ASCII decimal digit byte. -/
def isDigitByte (b : Nat) : Bool :=
  48 ≤ b && b ≤ 57

/-- Value of a big-endian run of decimal digit bytes. -/
def digitsVal (ds : List Nat) : Nat :=
  ds.foldl (fun acc b => acc * 10 + (b - 48)) 0

/-- Maximal run of decimal digit bytes with the remaining input; fails when
no digit is present. -/
def parseDigitsByte (bs : List Nat) : Option (List Nat × List Nat) :=
  if bs.takeWhile isDigitByte = [] then none
  else some (bs.takeWhile isDigitByte, bs.dropWhile isDigitByte)

/-- Integer part of a JSON number: a lone `0`, or a digit run that does not
start with `0` — the number grammar of `encoding/json` rejects leading
zeros, so after an initial `0` the integer part ends at once. -/
def parseIntPart (bs : List Nat) : Option (List Nat × List Nat) :=
  if bs.head? = some 48 then some ([48], bs.tail) else parseDigitsByte bs

/-- Exponent digits with an optional sign. -/
def parseExpTail (bs : List Nat) : Option (Int × List Nat) :=
  if bs.head? = some 43 then
    (parseDigitsByte bs.tail).map (fun p => ((digitsVal p.1 : Int), p.2))
  else if bs.head? = some 45 then
    (parseDigitsByte bs.tail).map (fun p => (-((digitsVal p.1 : Int)), p.2))
  else (parseDigitsByte bs).map (fun p => ((digitsVal p.1 : Int), p.2))

/-- Optional exponent part: `e` or `E` followed by optionally signed
digits. -/
def parseExpOpt (bs : List Nat) : Option (Int × List Nat) :=
  if bs.head? = some 101 ∨ bs.head? = some 69 then parseExpTail bs.tail else none

/-- Magnitude of a JSON number: integer part, optional fraction, optional
exponent. Integer-syntax literals yield `num`; fractional or exponent
literals yield the exact decimal `dec m e` with mantissa `m` and power of
ten `e`. A malformed continuation (for instance a dot without fraction
digits) is left unconsumed for the caller to reject, as the Go scanner
rejects it in place. -/
def parseNumMag (bs : List Nat) : Option (SortValue × List Nat) :=
  match parseIntPart bs with
  | none => none
  | some dp =>
    if dp.2.head? = some 46 then
      match parseDigitsByte dp.2.tail with
      | none => some (SortValue.num ((digitsVal dp.1 : Int)), dp.2)
      | some fp =>
        match parseExpOpt fp.2 with
        | some ep =>
          some (SortValue.dec ((digitsVal dp.1 * 10 ^ fp.1.length + digitsVal fp.1 : Nat) : Int)
            (ep.1 - (fp.1.length : Int)), ep.2)
        | none =>
          some (SortValue.dec ((digitsVal dp.1 * 10 ^ fp.1.length + digitsVal fp.1 : Nat) : Int)
            (-(fp.1.length : Int)), fp.2)
    else
      match parseExpOpt dp.2 with
      | some ep => some (SortValue.dec ((digitsVal dp.1 : Int)) ep.1, ep.2)
      | none => some (SortValue.num ((digitsVal dp.1 : Int)), dp.2)

/-- Sign application of a leading minus to a parsed number magnitude. -/
def negOfNum : SortValue → SortValue
  | .num n => .num (-n)
  | .dec m e => .dec (-m) e
  | v => v

/-- One JSON number token: an optional minus then a magnitude. -/
def parseNumberBytes (bs : List Nat) : Option (SortValue × List Nat) :=
  if bs.head? = some 45 then (parseNumMag bs.tail).map (fun p => (negOfNum p.1, p.2))
  else parseNumMag bs

/-- Completion of a high-surrogate `\uXXXX` escape of value `n`: a directly
following low-surrogate escape combines into the supplementary-plane
character; anything else turns the unpaired high surrogate into U+FFFD and
resumes right after it (so a trailing escape is retried on its own), as
`unquoteBytes` of `encoding/json` does. -/
def surrPair (n : Nat) (rest3 : List Nat) : Option (Option Char × List Nat) :=
  match rest3 with
  | 92 :: 117 :: h5 :: h6 :: h7 :: h8 :: rest4 =>
    match hex4Val h5 h6 h7 h8 with
    | some n2 =>
      if 56320 ≤ n2 ∧ n2 < 57344 then
        some (some (Char.ofNat (65536 + (n - 55296) * 1024 + (n2 - 56320))), rest4)
      else some (some (Char.ofNat 65533), rest3)
    | none => some (some (Char.ofNat 65533), rest3)
  | _ => some (some (Char.ofNat 65533), rest3)

/-- Resolution of a `\uXXXX` escape: four hexadecimal digits are required; a
high surrogate tries to pair, a lone low surrogate becomes U+FFFD, any other
value is the escaped character itself. -/
def uStep : List Nat → Option (Option Char × List Nat)
  | h1 :: h2 :: h3 :: h4 :: rest3 =>
    match hex4Val h1 h2 h3 h4 with
    | none => none
    | some n =>
      if 55296 ≤ n ∧ n < 56320 then surrPair n rest3
      else if 56320 ≤ n ∧ n < 57344 then some (some (Char.ofNat 65533), rest3)
      else some (some (Char.ofNat n), rest3)
  | _ => none

/-- Resolution of one escape sequence after the backslash: the eight short
escapes of the JSON grammar or a `\uXXXX` escape; anything else is an
error. -/
def escStep (e : Nat) (rest2 : List Nat) : Option (Option Char × List Nat) :=
  if e = 34 then some (some '"', rest2)
  else if e = 92 then some (some '\\', rest2)
  else if e = 47 then some (some '/', rest2)
  else if e = 110 then some (some '\n', rest2)
  else if e = 114 then some (some '\r', rest2)
  else if e = 116 then some (some '\t', rest2)
  else if e = 98 then some (some (Char.ofNat 8), rest2)
  else if e = 102 then some (some (Char.ofNat 12), rest2)
  else if e = 117 then uStep rest2
  else none

/-- An escape must have at least its selector byte. -/
def escStepOpt : List Nat → Option (Option Char × List Nat)
  | [] => none
  | e :: rest2 => escStep e rest2

/-- One step of the JSON string-body scanner: either the closing quote
(`none` in the first component) or one decoded character. This follows the
`unquoteBytes` resolution of `encoding/json`: escape sequences via
`escStep`; a raw control byte below 0x20 is an error (Go's scanner stage
rejects it); any other raw byte decodes as UTF-8, invalid sequences becoming
U+FFFD and consuming one byte. -/
def stringStep : List Nat → Option (Option Char × List Nat)
  | [] => none
  | b :: rest =>
    if b = 34 then some (none, rest)
    else if b = 92 then escStepOpt rest
    else if b < 32 then none
    else if b < 128 then some (some (Char.ofNat b), rest)
    else
      match utf8DecodeStep b rest with
      | some cr => some (some cr.1, cr.2)
      | none => some (some (Char.ofNat 65533), rest)

/-- Fuelled JSON string-body scanner: iterate `stringStep` until the closing
quote, accumulating the decoded characters. Every step consumes at least one
byte, so fuel equal to the input length suffices. -/
def parseStringBytes : Nat → List Nat → Option (List Char × List Nat)
  | 0, _ => none
  | fuel + 1, bs =>
    match stringStep bs with
    | none => none
    | some (none, r) => some ([], r)
    | some (some c, r) => (parseStringBytes fuel r).map (fun p => (c :: p.1, p.2))

mutual

/-- One JSON value as the Go scanner and `json.Unmarshal` into `any` accept
it — a string, number, literal, array or object beginning at the first byte
(whitespace already skipped). The fuel only bounds the bracket/comma nesting
depth; two units per consumed byte dominate it. -/
def parseJValue : Nat → List Nat → Option (SortValue × List Nat)
  | 0, _ => none
  | fuel + 1, bs =>
    match bs with
    | [] => none
    | b :: rest =>
      if b = 34 then
        (parseStringBytes rest.length rest).map
          (fun p => (SortValue.str (String.mk p.1), p.2))
      else if b = 110 then
        if rest.take 3 = [117, 108, 108] then some (SortValue.null, rest.drop 3) else none
      else if b = 116 then
        if rest.take 3 = [114, 117, 101] then some (SortValue.boolean true, rest.drop 3)
        else none
      else if b = 102 then
        if rest.take 4 = [97, 108, 115, 101] then some (SortValue.boolean false, rest.drop 4)
        else none
      else if b = 91 then
        if (skipWs rest).head? = some 93 then some (SortValue.arr [], (skipWs rest).tail)
        else (parseJElems fuel (skipWs rest)).map (fun p => (SortValue.arr p.1, p.2))
      else if b = 123 then
        if (skipWs rest).head? = some 125 then some (SortValue.obj [], (skipWs rest).tail)
        else (parseJFields fuel (skipWs rest)).map (fun p => (SortValue.obj p.1, p.2))
      else if b = 45 then parseNumberBytes (b :: rest)
      else if isDigitByte b then parseNumberBytes (b :: rest)
      else none

/-- The comma-separated members of a non-empty array, consuming the closing
bracket. -/
def parseJElems : Nat → List Nat → Option (List SortValue × List Nat)
  | 0, _ => none
  | fuel + 1, bs =>
    (parseJValue fuel bs).bind (fun p =>
      if (skipWs p.2).head? = some 93 then some ([p.1], (skipWs p.2).tail)
      else if (skipWs p.2).head? = some 44 then
        (parseJElems fuel (skipWs (skipWs p.2).tail)).map (fun q => (p.1 :: q.1, q.2))
      else none)

/-- The comma-separated fields of a non-empty object, consuming the closing
brace; every key is a JSON string. -/
def parseJFields : Nat → List Nat → Option (List (String × SortValue) × List Nat)
  | 0, _ => none
  | fuel + 1, bs =>
    if bs.head? = some 34 then
      (parseStringBytes bs.tail.length bs.tail).bind (fun kp =>
        if (skipWs kp.2).head? = some 58 then
          (parseJValue fuel (skipWs (skipWs kp.2).tail)).bind (fun vp =>
            if (skipWs vp.2).head? = some 125 then
              some ([(String.mk kp.1, vp.1)], (skipWs vp.2).tail)
            else if (skipWs vp.2).head? = some 44 then
              (parseJFields fuel (skipWs (skipWs vp.2).tail)).map
                (fun q => ((String.mk kp.1, vp.1) :: q.1, q.2))
            else none)
        else none)
    else none

end

/-- Embedding of `json.Unmarshal(blob, &out)` for `out []any` applied to the
decoded cursor bytes: optional leading whitespace, then exactly one JSON
value that must be an array (yielding its members) or `null` (yielding Go's
nil slice, i.e. the empty tuple), then optional trailing whitespace; any
other top-level value is a type error. The fuel `2 * length + 2` dominates
the recursion depth of any parse. -/
def parseJsonDoc (bs0 : List Nat) : Option (List SortValue) :=
  match parseJValue (2 * (skipWs bs0).length + 2) (skipWs bs0) with
  | some p =>
    match p.1 with
    | SortValue.arr xs => if (skipWs p.2).isEmpty then some xs else none
    | SortValue.null => if (skipWs p.2).isEmpty then some [] else none
    | _ => none
  | none => none

theorem natDigitsAux_head :
    ∀ (fuel n : Nat), n ≠ 0 → n ≤ fuel →
      ∃ d ds, natDigitsAux fuel n = d :: ds ∧ 49 ≤ d.toNat ∧ d.toNat ≤ 57 := by
  intro fuel
  induction fuel with
  | zero => intro n h0 hle; exact absurd (Nat.le_zero.mp hle) h0
  | succ fuel ih =>
      intro n h0 hle
      rw [natDigitsAux, if_neg h0]
      by_cases hq : n / 10 = 0
      · rw [hq, natDigitsAux_zero, List.nil_append]
        refine ⟨digitChar (n % 10), [], rfl, ?_, ?_⟩
        · rw [digitChar_toNat (by omega)]
          omega
        · rw [digitChar_toNat (by omega)]
          omega
      · obtain ⟨d, ds, heq, h1, h2⟩ := ih (n / 10) hq (by omega)
        refine ⟨d, ds ++ [digitChar (n % 10)], ?_, h1, h2⟩
        rw [heq]
        rfl

theorem natToChars_head_pos {n : Nat} (h : n ≠ 0) :
    ∃ d ds, natToChars n = d :: ds ∧ 49 ≤ d.toNat ∧ d.toNat ≤ 57 := by
  unfold natToChars
  rw [if_neg h]
  exact natDigitsAux_head n n h (le_refl n)

theorem digitsVal_map_toNat (ds : List Char) :
    digitsVal (ds.map Char.toNat) = digitsToNat ds := by
  unfold digitsVal digitsToNat digitVal
  rw [List.foldl_map]

theorem natToChars_bytes (n : Nat) :
    utf8EncodeList (natToChars n) = (natToChars n).map Char.toNat ∧
    (∀ b ∈ (natToChars n).map Char.toNat, isDigitByte b = true) ∧
    (natToChars n).map Char.toNat ≠ [] ∧
    digitsVal ((natToChars n).map Char.toNat) = n := by
  obtain ⟨hval, hdig, hne⟩ := natToChars_spec n
  have hfacts : ∀ c ∈ natToChars n, 48 ≤ c.toNat ∧ c.toNat ≤ 57 := by
    intro c hc
    have h := hdig c hc
    simp only [isDigitChar, Bool.and_eq_true, decide_eq_true_eq] at h
    exact h
  refine ⟨utf8EncodeList_ascii _ (fun c hc => by have := hfacts c hc; omega), ?_, ?_, ?_⟩
  · intro b hb
    rw [List.mem_map] at hb
    obtain ⟨c, hc, hbc⟩ := hb
    have h := hfacts c hc
    rw [← hbc]
    simp only [isDigitByte, Bool.and_eq_true, decide_eq_true_eq]
    omega
  · intro hcon
    apply hne
    simpa using hcon
  · rw [digitsVal_map_toNat, hval]

theorem intToChars_ascii (n : Int) : ∀ c ∈ intToChars n, c.toNat < 128 := by
  intro c hc
  unfold intToChars at hc
  by_cases h : n < 0
  · rw [if_pos h] at hc
    rcases List.mem_cons.mp hc with hc | hc
    · rw [hc]; decide
    · have hd := (natToChars_spec n.natAbs).2.1 c hc
      simp only [isDigitChar, Bool.and_eq_true, decide_eq_true_eq] at hd
      omega
  · rw [if_neg h] at hc
    have hd := (natToChars_spec n.natAbs).2.1 c hc
    simp only [isDigitChar, Bool.and_eq_true, decide_eq_true_eq] at hd
    omega

theorem intToChars_bytes (n : Int) :
    utf8EncodeList (intToChars n) = (intToChars n).map Char.toNat :=
  utf8EncodeList_ascii _ (intToChars_ascii n)

/-- Input positions at which a serialized JSON number ends inside a
serialized document: end of input, a comma, or a closing bracket or brace. -/
def stopByte (bs : List Nat) : Prop :=
  bs = [] ∨ bs.head? = some 44 ∨ bs.head? = some 93 ∨ bs.head? = some 125

theorem stopByte_facts {bs : List Nat} (h : stopByte bs) :
    (∀ b, bs.head? = some b → isDigitByte b = false) ∧ bs.head? ≠ some 46 ∧
      ¬ (bs.head? = some 101 ∨ bs.head? = some 69) := by
  rcases h with h | h | h | h
  · subst h
    refine ⟨fun b hb => ?_, by simp, by simp⟩
    simp at hb
  all_goals
    rw [h]
    refine ⟨fun b hb => ?_, by simp, by simp⟩
    simp only [Option.some.injEq] at hb
    subst hb
    decide

theorem parseDigitsByte_append {ds rest : List Nat} (hne : ds ≠ [])
    (hd : ∀ b ∈ ds, isDigitByte b = true)
    (hr : ∀ b, rest.head? = some b → isDigitByte b = false) :
    parseDigitsByte (ds ++ rest) = some (ds, rest) := by
  obtain ⟨ht, hdp⟩ := takeWhile_append_strict ds rest hd hr
  unfold parseDigitsByte
  rw [ht, hdp, if_neg hne]

theorem parseIntPart_append {n : Nat} {rest : List Nat}
    (hr : ∀ b, rest.head? = some b → isDigitByte b = false) :
    parseIntPart ((natToChars n).map Char.toNat ++ rest) =
      some ((natToChars n).map Char.toNat, rest) := by
  obtain ⟨_, hd, hne, _⟩ := natToChars_bytes n
  by_cases h0 : n = 0
  · subst h0
    have hz : (natToChars 0).map Char.toNat = [48] := by decide
    rw [hz]
    simp [parseIntPart]
  · obtain ⟨d, ds, hcons, h49, h57⟩ := natToChars_head_pos h0
    have hneq : ¬ ((((natToChars n).map Char.toNat) ++ rest).head? = some 48) := by
      rw [hcons]
      simp only [List.map_cons, List.cons_append, List.head?_cons, Option.some.injEq]
      omega
    unfold parseIntPart
    rw [if_neg hneq]
    exact parseDigitsByte_append hne hd hr

theorem parseNumMag_nat (n : Nat) (rest : List Nat) (hstop : stopByte rest) :
    parseNumMag ((natToChars n).map Char.toNat ++ rest) =
      some (SortValue.num (n : Int), rest) := by
  obtain ⟨_, hd, hne, hval⟩ := natToChars_bytes n
  obtain ⟨hrd, hr46, hrE⟩ := stopByte_facts hstop
  unfold parseNumMag
  rw [parseIntPart_append hrd]
  dsimp only
  rw [if_neg hr46]
  have hexp : parseExpOpt rest = none := by
    unfold parseExpOpt
    rw [if_neg hrE]
  rw [hexp]
  dsimp only
  rw [hval]

theorem parseNumber_int (n : Int) (rest : List Nat) (hstop : stopByte rest) :
    parseNumberBytes ((intToChars n).map Char.toNat ++ rest) =
      some (SortValue.num n, rest) := by
  unfold intToChars
  by_cases h : n < 0
  · rw [if_pos h]
    have hdash : Char.toNat ('-') = 45 := by decide
    simp only [List.map_cons, List.cons_append, hdash]
    unfold parseNumberBytes
    have hh : ((45 : Nat) :: ((natToChars n.natAbs).map Char.toNat ++ rest)).head? =
        some 45 := rfl
    rw [if_pos hh]
    simp only [List.tail_cons]
    rw [parseNumMag_nat n.natAbs rest hstop]
    simp only [Option.map_some', negOfNum]
    have hn : -((n.natAbs : Nat) : Int) = n := by omega
    rw [hn]
  · rw [if_neg h]
    unfold parseNumberBytes
    have hmain := parseNumMag_nat n.natAbs rest hstop
    have hn : ((n.natAbs : Nat) : Int) = n := by omega
    rw [hn] at hmain
    obtain ⟨d, ds, hcons⟩ : ∃ d ds, (natToChars n.natAbs).map Char.toNat = d :: ds := by
      cases hc : (natToChars n.natAbs).map Char.toNat with
      | nil => exact absurd hc (natToChars_bytes n.natAbs).2.2.1
      | cons d ds => exact ⟨d, ds, rfl⟩
    have hd : isDigitByte d = true := (natToChars_bytes n.natAbs).2.1 d (by rw [hcons]; simp)
    simp only [isDigitByte, Bool.and_eq_true, decide_eq_true_eq] at hd
    have h45 : ¬ ((((natToChars n.natAbs).map Char.toNat) ++ rest).head? = some 45) := by
      rw [hcons]
      simp only [List.cons_append, List.head?_cons, Option.some.injEq]
      omega
    rw [if_neg h45]
    exact hmain

theorem parseExpTail_int (e : Int) (rest : List Nat) (hstop : stopByte rest) :
    parseExpTail ((intToChars e).map Char.toNat ++ rest) = some (e, rest) := by
  obtain ⟨hrd, _, _⟩ := stopByte_facts hstop
  unfold intToChars
  by_cases h : e < 0
  · rw [if_pos h]
    have hdash : Char.toNat ('-') = 45 := by decide
    simp only [List.map_cons, List.cons_append, hdash]
    unfold parseExpTail
    have h43 : ¬ (((45 : Nat) :: ((natToChars e.natAbs).map Char.toNat ++ rest)).head? =
        some 43) := by simp
    have h45 : ((45 : Nat) :: ((natToChars e.natAbs).map Char.toNat ++ rest)).head? =
        some 45 := rfl
    rw [if_neg h43, if_pos h45]
    simp only [List.tail_cons]
    obtain ⟨_, hd, hne, hval⟩ := natToChars_bytes e.natAbs
    rw [parseDigitsByte_append hne hd hrd]
    simp only [Option.map_some', hval]
    have hn : -((e.natAbs : Nat) : Int) = e := by omega
    rw [hn]
  · rw [if_neg h]
    unfold parseExpTail
    obtain ⟨_, hd, hne, hval⟩ := natToChars_bytes e.natAbs
    obtain ⟨d, ds, hcons⟩ : ∃ d ds, (natToChars e.natAbs).map Char.toNat = d :: ds := by
      cases hc : (natToChars e.natAbs).map Char.toNat with
      | nil => exact absurd hc hne
      | cons d ds => exact ⟨d, ds, rfl⟩
    have hdd : isDigitByte d = true := hd d (by rw [hcons]; simp)
    simp only [isDigitByte, Bool.and_eq_true, decide_eq_true_eq] at hdd
    have h43 : ¬ ((((natToChars e.natAbs).map Char.toNat) ++ rest).head? = some 43) := by
      rw [hcons]
      simp only [List.cons_append, List.head?_cons, Option.some.injEq]
      omega
    have h45 : ¬ ((((natToChars e.natAbs).map Char.toNat) ++ rest).head? = some 45) := by
      rw [hcons]
      simp only [List.cons_append, List.head?_cons, Option.some.injEq]
      omega
    rw [if_neg h43, if_neg h45, parseDigitsByte_append hne hd hrd]
    simp only [Option.map_some', hval]
    have hn : ((e.natAbs : Nat) : Int) = e := by omega
    rw [hn]

theorem parseNumMag_dec (mAbs : Nat) (e : Int) (rest : List Nat) (hstop : stopByte rest) :
    parseNumMag ((natToChars mAbs).map Char.toNat ++
        (101 :: ((intToChars e).map Char.toNat ++ rest))) =
      some (SortValue.dec (mAbs : Int) e, rest) := by
  obtain ⟨_, hd, hne, hval⟩ := natToChars_bytes mAbs
  have hr101 : ∀ b, ((101 : Nat) :: ((intToChars e).map Char.toNat ++ rest)).head? = some b →
      isDigitByte b = false := by
    intro b hb
    simp only [List.head?_cons, Option.some.injEq] at hb
    subst hb
    decide
  unfold parseNumMag
  rw [parseIntPart_append hr101]
  dsimp only
  have h46 : ¬ (((101 : Nat) :: ((intToChars e).map Char.toNat ++ rest)).head? =
      some 46) := by simp
  rw [if_neg h46]
  have hexp : parseExpOpt (101 :: ((intToChars e).map Char.toNat ++ rest)) =
      some (e, rest) := by
    unfold parseExpOpt
    have hcond : ((101 : Nat) :: ((intToChars e).map Char.toNat ++ rest)).head? = some 101 ∨
        ((101 : Nat) :: ((intToChars e).map Char.toNat ++ rest)).head? = some 69 :=
      Or.inl rfl
    rw [if_pos hcond]
    simp only [List.tail_cons]
    exact parseExpTail_int e rest hstop
  rw [hexp]
  dsimp only
  rw [hval]

theorem parseNumber_dec (m e : Int) (rest : List Nat) (hstop : stopByte rest) :
    parseNumberBytes ((intToChars m ++ ('e') :: intToChars e).map Char.toNat ++ rest) =
      some (SortValue.dec m e, rest) := by
  have he : Char.toNat ('e') = 101 := by decide
  rw [List.map_append]
  simp only [List.map_cons, he, List.append_assoc, List.cons_append]
  by_cases h : m < 0
  · rw [intToChars, if_pos h]
    have hdash : Char.toNat ('-') = 45 := by decide
    simp only [List.map_cons, List.cons_append, hdash]
    unfold parseNumberBytes
    have hh : ((45 : Nat) :: ((natToChars m.natAbs).map Char.toNat ++
        (101 :: ((intToChars e).map Char.toNat ++ rest)))).head? = some 45 := rfl
    rw [if_pos hh]
    simp only [List.tail_cons]
    rw [parseNumMag_dec m.natAbs e rest hstop]
    simp only [Option.map_some', negOfNum]
    have hn : -((m.natAbs : Nat) : Int) = m := by omega
    rw [hn]
  · rw [intToChars, if_neg h]
    unfold parseNumberBytes
    have hmain := parseNumMag_dec m.natAbs e rest hstop
    have hn : ((m.natAbs : Nat) : Int) = m := by omega
    rw [hn] at hmain
    obtain ⟨d, ds, hcons⟩ : ∃ d ds, (natToChars m.natAbs).map Char.toNat = d :: ds := by
      cases hc : (natToChars m.natAbs).map Char.toNat with
      | nil => exact absurd hc (natToChars_bytes m.natAbs).2.2.1
      | cons d ds => exact ⟨d, ds, rfl⟩
    have hd : isDigitByte d = true := (natToChars_bytes m.natAbs).2.1 d (by rw [hcons]; simp)
    simp only [isDigitByte, Bool.and_eq_true, decide_eq_true_eq] at hd
    have h45 : ¬ ((((natToChars m.natAbs).map Char.toNat) ++
        (101 :: ((intToChars e).map Char.toNat ++ rest))).head? = some 45) := by
      rw [hcons]
      simp only [List.cons_append, List.head?_cons, Option.some.injEq]
      omega
    rw [if_neg h45]
    exact hmain

theorem utf8EncodeList_nil : utf8EncodeList [] = [] := rfl

theorem stringStep_close (rest : List Nat) : stringStep (34 :: rest) = some (none, rest) := by
  rw [stringStep]
  rw [if_pos (by rfl)]

theorem stringStep_escapeChar (c : Char) (tail : List Nat) :
    utf8EncodeList (escapeChar c) ≠ [] ∧
    stringStep (utf8EncodeList (escapeChar c) ++ tail) = some (some c, tail) := by
  unfold escapeChar
  by_cases h1 : c = '"'
  · subst h1
    rw [if_pos (by rfl), (by decide : utf8EncodeList ['\\', '"'] = [92, 34])]
    refine ⟨by simp, ?_⟩
    rw [List.cons_append, List.cons_append, List.nil_append, stringStep]
    simp +decide [escStepOpt, escStep]
  rw [if_neg h1]
  by_cases h2 : c = '\\'
  · subst h2
    rw [if_pos (by rfl), (by decide : utf8EncodeList ['\\', '\\'] = [92, 92])]
    refine ⟨by simp, ?_⟩
    rw [List.cons_append, List.cons_append, List.nil_append, stringStep]
    simp +decide [escStepOpt, escStep]
  rw [if_neg h2]
  by_cases h3 : c = '\n'
  · subst h3
    rw [if_pos (by rfl), (by decide : utf8EncodeList ['\\', 'n'] = [92, 110])]
    refine ⟨by simp, ?_⟩
    rw [List.cons_append, List.cons_append, List.nil_append, stringStep]
    simp +decide [escStepOpt, escStep]
  rw [if_neg h3]
  by_cases h4 : c = '\r'
  · subst h4
    rw [if_pos (by rfl), (by decide : utf8EncodeList ['\\', 'r'] = [92, 114])]
    refine ⟨by simp, ?_⟩
    rw [List.cons_append, List.cons_append, List.nil_append, stringStep]
    simp +decide [escStepOpt, escStep]
  rw [if_neg h4]
  by_cases h5 : c = '\t'
  · subst h5
    rw [if_pos (by rfl), (by decide : utf8EncodeList ['\\', 't'] = [92, 116])]
    refine ⟨by simp, ?_⟩
    rw [List.cons_append, List.cons_append, List.nil_append, stringStep]
    simp +decide [escStepOpt, escStep]
  rw [if_neg h5]
  by_cases h6 : c.toNat < 32 ∨ c = '<' ∨ c = '>' ∨ c = '&' ∨ c.toNat = 8232 ∨ c.toNat = 8233
  · rw [if_pos h6]
    have hlt : c.toNat < 65536 := by
      rcases h6 with h | h | h | h | h | h
      · omega
      · rw [h]; decide
      · rw [h]; decide
      · rw [h]; decide
      · omega
      · omega
    have hns : ¬ (55296 ≤ c.toNat ∧ c.toNat < 57344) := by
      rcases h6 with h | h | h | h | h | h
      · omega
      · rw [h]; decide
      · rw [h]; decide
      · rw [h]; decide
      · omega
      · omega
    have hns1 : ¬ (55296 ≤ c.toNat ∧ c.toNat < 56320) := fun hc => hns ⟨hc.1, by omega⟩
    have hns2 : ¬ (56320 ≤ c.toNat ∧ c.toNat < 57344) := fun hc => hns ⟨by omega, hc.2⟩
    have hbyt : utf8EncodeList ('\\' :: 'u' :: hex4 c.toNat) =
        92 :: 117 :: (hexDigitChar (c.toNat / 4096 % 16)).toNat ::
          (hexDigitChar (c.toNat / 256 % 16)).toNat ::
          (hexDigitChar (c.toNat / 16 % 16)).toNat ::
          (hexDigitChar (c.toNat % 16)).toNat :: [] := by
      rw [hex4, utf8EncodeList_cons_ascii _ (by decide), utf8EncodeList_cons_ascii _ (by decide),
        utf8EncodeList_cons_ascii _ (hexDigitChar_toNat_lt (by omega)),
        utf8EncodeList_cons_ascii _ (hexDigitChar_toNat_lt (by omega)),
        utf8EncodeList_cons_ascii _ (hexDigitChar_toNat_lt (by omega)),
        utf8EncodeList_cons_ascii _ (hexDigitChar_toNat_lt (by omega)), utf8EncodeList_nil]
      simp [(by decide : Char.toNat ('\\') = 92), (by decide : Char.toNat ('u') = 117)]
    rw [hbyt]
    refine ⟨by simp, ?_⟩
    simp only [List.cons_append, List.nil_append]
    rw [stringStep]
    have hhex := hex4Val_hex4 hlt
    simp +decide [escStepOpt, escStep, uStep, hhex, hns1, hns2, Char.ofNat_toNat]
  · rw [if_neg h6]
    by_cases hlt : c.toNat < 128
    · have hbyt : utf8EncodeList [c] = [c.toNat] := by
        rw [utf8EncodeList_cons_ascii _ hlt, utf8EncodeList_nil]
      rw [hbyt]
      refine ⟨by simp, ?_⟩
      rw [List.cons_append, List.nil_append, stringStep]
      have hn34 : ¬ (c.toNat = 34) := fun hc => h1 (char_eq_of_toNat (by rw [hc]; decide))
      have hn92 : ¬ (c.toNat = 92) := fun hc => h2 (char_eq_of_toNat (by rw [hc]; decide))
      have hn32 : ¬ (c.toNat < 32) := fun hc => h6 (Or.inl hc)
      rw [if_neg hn34, if_neg hn92, if_neg hn32, if_pos hlt, Char.ofNat_toNat]
    · have hge : 128 ≤ c.toNat := by omega
      obtain ⟨hb0, t0, henc, hstep, h192⟩ := utf8DecodeStep_encode c tail
      have hbyt : utf8EncodeList [c] = hb0 :: t0 := by
        rw [utf8EncodeList, henc, utf8EncodeList_nil]
        simp
      rw [hbyt]
      refine ⟨by simp, ?_⟩
      rw [List.cons_append, stringStep]
      have h192c := h192 hge
      rw [if_neg (by omega : ¬ (hb0 = 34)), if_neg (by omega : ¬ (hb0 = 92)),
        if_neg (by omega : ¬ (hb0 < 32)), if_neg (by omega : ¬ (hb0 < 128)), hstep]

theorem parseStringBytes_escape :
    ∀ (cs : List Char) (fuel : Nat) (rest : List Nat),
      (utf8EncodeList (escapeList cs)).length < fuel →
      parseStringBytes fuel (utf8EncodeList (escapeList cs) ++ (34 :: rest)) =
        some (cs, rest) := by
  intro cs
  induction cs with
  | nil =>
      intro fuel rest hlen
      rw [escapeList, utf8EncodeList_nil] at hlen ⊢
      rw [List.nil_append]
      cases fuel with
      | zero => simp at hlen
      | succ f =>
          rw [parseStringBytes, stringStep_close]
  | cons c cs ih =>
      intro fuel rest hlen
      rw [escapeList, utf8EncodeList_append] at hlen ⊢
      rw [List.append_assoc]
      obtain ⟨hne, hstep⟩ := stringStep_escapeChar c (utf8EncodeList (escapeList cs) ++ (34 :: rest))
      have h1 : 1 ≤ (utf8EncodeList (escapeChar c)).length := by
        cases hx : utf8EncodeList (escapeChar c) with
        | nil => exact absurd hx hne
        | cons a l => simp
      cases fuel with
      | zero => simp only [List.length_append] at hlen; omega
      | succ f =>
          rw [parseStringBytes, hstep]
          dsimp only
          rw [ih f rest (by simp only [List.length_append] at hlen; omega)]
          rfl

theorem skipWs_cons {b : Nat} (h : jsonWs b = false) {r : List Nat} :
    skipWs (b :: r) = b :: r := by
  simp [skipWs, List.dropWhile_cons, h]

theorem serializeElems_one (v : SortValue) : serializeElems [v] = serializeValue v := by
  rw [serializeElems]

theorem serializeElems_cons_cons (v v2 : SortValue) (tl : List SortValue) :
    serializeElems (v :: v2 :: tl) = serializeValue v ++ (',') :: serializeElems (v2 :: tl) := by
  rw [serializeElems]

theorem serializeFields_one (k : String) (v : SortValue) :
    serializeFields [(k, v)] =
      ('"') :: (escapeList k.toList ++ ('"') :: (':') :: serializeValue v) := by
  rw [serializeFields]

theorem serializeFields_cons_cons (k : String) (v : SortValue) (f2 : String × SortValue)
    (tl : List (String × SortValue)) :
    serializeFields ((k, v) :: f2 :: tl) =
      (('"') :: (escapeList k.toList ++ ('"') :: (':') :: serializeValue v)) ++
        (',') :: serializeFields (f2 :: tl) := by
  rw [serializeFields]

theorem serializeValue_head (v : SortValue) :
    ∃ b t, utf8EncodeList (serializeValue v) = b :: t ∧ jsonWs b = false ∧
      b ≠ 93 ∧ b ≠ 125 ∧ b ≠ 44 := by
  cases v with
  | str s =>
      rw [serializeValue, utf8EncodeList_cons_ascii _ (by decide)]
      exact ⟨_, _, rfl, by decide, by decide, by decide, by decide⟩
  | num n =>
      rw [serializeValue, intToChars]
      by_cases h : n < 0
      · rw [if_pos h, utf8EncodeList_cons_ascii _ (by decide)]
        exact ⟨_, _, rfl, by decide, by decide, by decide, by decide⟩
      · rw [if_neg h]
        by_cases h0 : n.natAbs = 0
        · rw [h0, (by decide : natToChars 0 = ['0']), utf8EncodeList_cons_ascii _ (by decide)]
          exact ⟨_, _, rfl, by decide, by decide, by decide, by decide⟩
        · obtain ⟨d, ds, hcons, h49, h57⟩ := natToChars_head_pos h0
          rw [hcons, utf8EncodeList_cons_ascii _ (by omega)]
          refine ⟨d.toNat, _, rfl, ?_, by omega, by omega, by omega⟩
          simp only [jsonWs, Bool.or_eq_false_iff, decide_eq_false_iff_not]
          omega
  | dec m e =>
      rw [serializeValue, intToChars]
      by_cases h : m < 0
      · rw [if_pos h, List.cons_append, utf8EncodeList_cons_ascii _ (by decide)]
        exact ⟨_, _, rfl, by decide, by decide, by decide, by decide⟩
      · rw [if_neg h]
        by_cases h0 : m.natAbs = 0
        · rw [h0, (by decide : natToChars 0 = ['0']), List.cons_append,
            utf8EncodeList_cons_ascii _ (by decide)]
          exact ⟨_, _, rfl, by decide, by decide, by decide, by decide⟩
        · obtain ⟨d, ds, hcons, h49, h57⟩ := natToChars_head_pos h0
          rw [hcons, List.cons_append, utf8EncodeList_cons_ascii _ (by omega)]
          refine ⟨d.toNat, _, rfl, ?_, by omega, by omega, by omega⟩
          simp only [jsonWs, Bool.or_eq_false_iff, decide_eq_false_iff_not]
          omega
  | boolean b =>
      cases b with
      | true =>
          rw [serializeValue, utf8EncodeList_cons_ascii _ (by decide)]
          exact ⟨_, _, rfl, by decide, by decide, by decide, by decide⟩
      | false =>
          rw [serializeValue, utf8EncodeList_cons_ascii _ (by decide)]
          exact ⟨_, _, rfl, by decide, by decide, by decide, by decide⟩
  | null =>
      rw [serializeValue, utf8EncodeList_cons_ascii _ (by decide)]
      exact ⟨_, _, rfl, by decide, by decide, by decide, by decide⟩
  | arr xs =>
      rw [serializeValue, utf8EncodeList_cons_ascii _ (by decide)]
      exact ⟨_, _, rfl, by decide, by decide, by decide, by decide⟩
  | obj fs =>
      rw [serializeValue, utf8EncodeList_cons_ascii _ (by decide)]
      exact ⟨_, _, rfl, by decide, by decide, by decide, by decide⟩

theorem serializeElems_head (xs : List SortValue) (h : xs ≠ []) :
    ∃ b t, utf8EncodeList (serializeElems xs) = b :: t ∧ jsonWs b = false ∧
      b ≠ 93 ∧ b ≠ 125 ∧ b ≠ 44 := by
  cases xs with
  | nil => exact absurd rfl h
  | cons y tl =>
      obtain ⟨b, t, hb, hws, h93, h125, h44⟩ := serializeValue_head y
      cases tl with
      | nil =>
          rw [serializeElems_one, hb]
          exact ⟨b, t, rfl, hws, h93, h125, h44⟩
      | cons v2 tl2 =>
          rw [serializeElems_cons_cons, utf8EncodeList_append, hb, List.cons_append]
          exact ⟨b, _, rfl, hws, h93, h125, h44⟩

theorem serializeFields_head (fs : List (String × SortValue)) (h : fs ≠ []) :
    ∃ t, utf8EncodeList (serializeFields fs) = 34 :: t := by
  cases fs with
  | nil => exact absurd rfl h
  | cons f tl =>
      obtain ⟨k, v⟩ := f
      cases tl with
      | nil =>
          rw [serializeFields_one, utf8EncodeList_cons_ascii _ (by decide),
            (by decide : Char.toNat ('"') = 34)]
          exact ⟨_, rfl⟩
      | cons f2 tl2 =>
          rw [serializeFields_cons_cons, utf8EncodeList_append,
            utf8EncodeList_cons_ascii _ (by decide), (by decide : Char.toNat ('"') = 34),
            List.cons_append]
          exact ⟨_, rfl⟩

theorem parseJValue_number (f : Nat) (b : Nat) (rest : List Nat)
    (h : b = 45 ∨ isDigitByte b = true) :
    parseJValue (f + 1) (b :: rest) = parseNumberBytes (b :: rest) := by
  rw [parseJValue]
  rcases h with h | h
  · subst h
    rw [if_neg (by decide), if_neg (by decide), if_neg (by decide), if_neg (by decide),
      if_neg (by decide), if_neg (by decide), if_pos (by rfl)]
  · have hd := h
    simp only [isDigitByte, Bool.and_eq_true, decide_eq_true_eq] at hd
    rw [if_neg (by omega : ¬ (b = 34)), if_neg (by omega : ¬ (b = 110)),
      if_neg (by omega : ¬ (b = 116)), if_neg (by omega : ¬ (b = 102)),
      if_neg (by omega : ¬ (b = 91)), if_neg (by omega : ¬ (b = 123)),
      if_neg (by omega : ¬ (b = 45)), if_pos h]

theorem parse_serialize :
    ∀ fuel : Nat,
      (∀ (v : SortValue) (rest : List Nat),
        2 * (utf8EncodeList (serializeValue v)).length ≤ fuel → stopByte rest →
        parseJValue fuel (utf8EncodeList (serializeValue v) ++ rest) = some (v, rest)) ∧
      (∀ (xs : List SortValue) (rest : List Nat), xs ≠ [] →
        2 * (utf8EncodeList (serializeElems xs)).length < fuel →
        parseJElems fuel (utf8EncodeList (serializeElems xs) ++ (93 :: rest)) =
          some (xs, rest)) ∧
      (∀ (fs : List (String × SortValue)) (rest : List Nat), fs ≠ [] →
        2 * (utf8EncodeList (serializeFields fs)).length < fuel →
        parseJFields fuel (utf8EncodeList (serializeFields fs) ++ (125 :: rest)) =
          some (fs, rest)) := by
  intro fuel
  induction fuel using Nat.strong_induction_on with
  | _ fuel ih =>
  refine ⟨?_, ?_, ?_⟩
  · intro v rest hfuel hstop
    have hlen1 : 1 ≤ (utf8EncodeList (serializeValue v)).length := by
      obtain ⟨b0, t0, hhead, _, _, _, _⟩ := serializeValue_head v
      rw [hhead]
      simp
    cases fuel with
    | zero => exact absurd hfuel (by omega)
    | succ f =>
      cases v with
      | str s =>
          rw [serializeValue, utf8EncodeList_cons_ascii _ (by decide), utf8EncodeList_append,
            (by decide : utf8EncodeList ['"'] = [34]), (by decide : Char.toNat ('"') = 34),
            List.cons_append, List.append_assoc, List.singleton_append]
          rw [parseJValue, if_pos (by rfl)]
          rw [parseStringBytes_escape s.toList _ rest
            (by simp only [List.length_append, List.length_cons]; omega)]
          simp only [Option.map_some', string_mk_toList]
      | num n =>
          rw [serializeValue, intToChars_bytes]
          obtain ⟨d, ds, hcons, hd⟩ : ∃ d ds, (intToChars n).map Char.toNat = d :: ds ∧
              (d = 45 ∨ isDigitByte d = true) := by
            rw [intToChars]
            by_cases hneg : n < 0
            · rw [if_pos hneg]
              refine ⟨45, (natToChars n.natAbs).map Char.toNat, ?_, Or.inl rfl⟩
              simp [(by decide : Char.toNat ('-') = 45)]
            · rw [if_neg hneg]
              obtain ⟨hb, hdall, hne, hval⟩ := natToChars_bytes n.natAbs
              obtain ⟨d, ds, hcons⟩ : ∃ d ds, (natToChars n.natAbs).map Char.toNat = d :: ds := by
                cases hc : (natToChars n.natAbs).map Char.toNat with
                | nil => exact absurd hc hne
                | cons d ds => exact ⟨d, ds, rfl⟩
              exact ⟨d, ds, hcons, Or.inr (hdall d (by rw [hcons]; simp))⟩
          rw [hcons, List.cons_append, parseJValue_number f d _ hd, ← List.cons_append, ← hcons]
          exact parseNumber_int n rest hstop
      | dec m e =>
          rw [serializeValue]
          have hba : utf8EncodeList (intToChars m ++ ('e') :: intToChars e) =
              (intToChars m ++ ('e') :: intToChars e).map Char.toNat := by
            apply utf8EncodeList_ascii
            intro c hc
            rcases List.mem_append.mp hc with hc | hc
            · exact intToChars_ascii m c hc
            · rcases List.mem_cons.mp hc with hc | hc
              · rw [hc]; decide
              · exact intToChars_ascii e c hc
          rw [hba]
          obtain ⟨d, ds, hcons, hd⟩ :
              ∃ d ds, (intToChars m ++ ('e') :: intToChars e).map Char.toNat = d :: ds ∧
                (d = 45 ∨ isDigitByte d = true) := by
            rw [List.map_append, intToChars]
            by_cases hneg : m < 0
            · rw [if_pos hneg]
              refine ⟨45, (natToChars m.natAbs).map Char.toNat ++
                ((('e') :: intToChars e).map Char.toNat), ?_, Or.inl rfl⟩
              simp [(by decide : Char.toNat ('-') = 45)]
            · rw [if_neg hneg]
              obtain ⟨hb, hdall, hne, hval⟩ := natToChars_bytes m.natAbs
              obtain ⟨d, ds, hcons⟩ : ∃ d ds, (natToChars m.natAbs).map Char.toNat = d :: ds := by
                cases hc : (natToChars m.natAbs).map Char.toNat with
                | nil => exact absurd hc hne
                | cons d ds => exact ⟨d, ds, rfl⟩
              refine ⟨d, ds ++ ((('e') :: intToChars e).map Char.toNat), ?_,
                Or.inr (hdall d (by rw [hcons]; simp))⟩
              rw [hcons, List.cons_append]
          rw [hcons, List.cons_append, parseJValue_number f d _ hd, ← List.cons_append, ← hcons]
          exact parseNumber_dec m e rest hstop
      | boolean b =>
          cases b with
          | true =>
              rw [serializeValue,
                (by decide : utf8EncodeList ['t', 'r', 'u', 'e'] = [116, 114, 117, 101])]
              simp only [List.cons_append, List.nil_append]
              rw [parseJValue, if_neg (by decide), if_neg (by decide), if_pos (by rfl),
                if_pos (by rfl)]
              rfl
          | false =>
              rw [serializeValue,
                (by decide : utf8EncodeList ['f', 'a', 'l', 's', 'e'] = [102, 97, 108, 115, 101])]
              simp only [List.cons_append, List.nil_append]
              rw [parseJValue, if_neg (by decide), if_neg (by decide), if_neg (by decide),
                if_pos (by rfl), if_pos (by rfl)]
              rfl
      | null =>
          rw [serializeValue,
            (by decide : utf8EncodeList ['n', 'u', 'l', 'l'] = [110, 117, 108, 108])]
          simp only [List.cons_append, List.nil_append]
          rw [parseJValue, if_neg (by decide), if_pos (by rfl), if_pos (by rfl)]
          rfl
      | arr xs =>
          rw [serializeValue, utf8EncodeList_cons_ascii _ (by decide), utf8EncodeList_append,
            (by decide : utf8EncodeList [(']')] = [93]),
            (by decide : Char.toNat ('[') = 91)] at hfuel ⊢
          rw [List.cons_append, List.append_assoc, List.singleton_append]
          rw [parseJValue, if_neg (by decide), if_neg (by decide), if_neg (by decide),
            if_neg (by decide), if_pos (by rfl)]
          cases xs with
          | nil =>
              have hE : utf8EncodeList (serializeElems ([] : List SortValue)) = [] := by
                rw [serializeElems]
                rfl
              rw [hE, List.nil_append, skipWs_cons (by decide), if_pos (by rfl)]
              rfl
          | cons y tl =>
              obtain ⟨be, te, hbe, hwse, h93e, _, _⟩ := serializeElems_head (y :: tl) (by simp)
              rw [hbe, List.cons_append, skipWs_cons hwse]
              rw [if_neg (by simp [h93e])]
              rw [← List.cons_append, ← hbe]
              rw [(ih f (by omega)).2.1 (y :: tl) rest (by simp)
                (by
                  rw [hbe] at hfuel ⊢
                  simp only [List.length_append, List.length_cons] at hfuel ⊢
                  omega)]
              rfl
      | obj fs =>
          rw [serializeValue, utf8EncodeList_cons_ascii _ (by decide), utf8EncodeList_append,
            (by decide : utf8EncodeList [Char.ofNat 125] = [125]),
            (by decide : Char.toNat (Char.ofNat 123) = 123)] at hfuel ⊢
          rw [List.cons_append, List.append_assoc, List.singleton_append]
          rw [parseJValue, if_neg (by decide), if_neg (by decide), if_neg (by decide),
            if_neg (by decide), if_neg (by decide), if_pos (by rfl)]
          cases fs with
          | nil =>
              have hF : utf8EncodeList (serializeFields ([] : List (String × SortValue))) =
                  [] := by
                rw [serializeFields]
                rfl
              rw [hF, List.nil_append, skipWs_cons (by decide), if_pos (by rfl)]
              rfl
          | cons kv tl =>
              obtain ⟨tf, hbf⟩ := serializeFields_head (kv :: tl) (by simp)
              rw [hbf, List.cons_append, skipWs_cons (by decide)]
              rw [if_neg (by simp)]
              rw [← List.cons_append, ← hbf]
              rw [(ih f (by omega)).2.2 (kv :: tl) rest (by simp)
                (by
                  rw [hbf] at hfuel ⊢
                  simp only [List.length_append, List.length_cons] at hfuel ⊢
                  omega)]
              rfl
  · intro xs rest hxs hfuel
    cases fuel with
    | zero => exact absurd hfuel (by omega)
    | succ f =>
      cases xs with
      | nil => exact absurd rfl hxs
      | cons y tl =>
        cases tl with
        | nil =>
            rw [serializeElems_one] at hfuel ⊢
            rw [parseJElems]
            rw [(ih f (by omega)).1 y (93 :: rest) (by omega)
              (Or.inr (Or.inr (Or.inl rfl)))]
            dsimp only [Option.some_bind]
            rw [skipWs_cons (by decide), if_pos (by rfl)]
            rfl
        | cons v2 tl2 =>
            rw [serializeElems_cons_cons, utf8EncodeList_append,
              utf8EncodeList_cons_ascii _ (by decide),
              (by decide : Char.toNat (',') = 44)] at hfuel ⊢
            rw [List.append_assoc, List.cons_append]
            rw [parseJElems]
            rw [(ih f (by omega)).1 y
              (44 :: (utf8EncodeList (serializeElems (v2 :: tl2)) ++ 93 :: rest))
              (by simp only [List.length_append, List.length_cons] at hfuel ⊢; omega)
              (Or.inr (Or.inl rfl))]
            dsimp only [Option.some_bind]
            rw [skipWs_cons (by decide), if_neg (by simp), if_pos (by rfl)]
            simp only [List.tail_cons]
            obtain ⟨be, te, hbe, hwse, _, _, _⟩ := serializeElems_head (v2 :: tl2) (by simp)
            rw [hbe, List.cons_append, skipWs_cons hwse, ← List.cons_append, ← hbe]
            rw [(ih f (by omega)).2.1 (v2 :: tl2) rest (by simp)
              (by simp only [List.length_append, List.length_cons] at hfuel ⊢; omega)]
            rfl
  · intro fs rest hfs hfuel
    cases fuel with
    | zero => exact absurd hfuel (by omega)
    | succ f =>
      cases fs with
      | nil => exact absurd rfl hfs
      | cons kv tl =>
        obtain ⟨k, v⟩ := kv
        have hfld : utf8EncodeList (('"') :: (escapeList k.toList ++
            ('"') :: (':') :: serializeValue v)) =
            34 :: (utf8EncodeList (escapeList k.toList) ++
              34 :: 58 :: utf8EncodeList (serializeValue v)) := by
          rw [utf8EncodeList_cons_ascii _ (by decide),
            utf8EncodeList_append, utf8EncodeList_cons_ascii _ (by decide),
            utf8EncodeList_cons_ascii _ (by decide),
            (by decide : Char.toNat ('"') = 34), (by decide : Char.toNat (':') = 58)]
        cases tl with
        | nil =>
            rw [serializeFields_one, hfld] at hfuel ⊢
            rw [List.cons_append, parseJFields, if_pos (by rfl)]
            simp only [List.tail_cons]
            rw [List.append_assoc, List.cons_append, List.cons_append]
            rw [parseStringBytes_escape k.toList _ _
              (by simp only [List.length_append, List.length_cons]; omega)]
            dsimp only [Option.some_bind]
            rw [skipWs_cons (by decide), if_pos (by rfl)]
            simp only [List.tail_cons]
            obtain ⟨bv, tv, hbv, hwsv, _, _, _⟩ := serializeValue_head v
            rw [hbv, List.cons_append, skipWs_cons hwsv, ← List.cons_append, ← hbv]
            rw [(ih f (by omega)).1 v (125 :: rest)
              (by simp only [List.length_append, List.length_cons] at hfuel ⊢; omega)
              (Or.inr (Or.inr (Or.inr rfl)))]
            dsimp only [Option.some_bind]
            rw [skipWs_cons (by decide), if_pos (by rfl)]
            simp [string_mk_toList]
        | cons f2 tl2 =>
            rw [serializeFields_cons_cons, utf8EncodeList_append, hfld,
              utf8EncodeList_cons_ascii _ (by decide),
              (by decide : Char.toNat (',') = 44)] at hfuel ⊢
            simp only [List.cons_append, List.append_assoc]
            rw [parseJFields, if_pos (by rfl)]
            simp only [List.tail_cons]
            rw [parseStringBytes_escape k.toList _ _
              (by simp only [List.length_append, List.length_cons] at hfuel ⊢; omega)]
            dsimp only [Option.some_bind]
            rw [skipWs_cons (by decide), if_pos (by rfl)]
            simp only [List.tail_cons]
            obtain ⟨bv, tv, hbv, hwsv, _, _, _⟩ := serializeValue_head v
            rw [hbv, List.cons_append, skipWs_cons hwsv, ← List.cons_append, ← hbv]
            rw [(ih f (by omega)).1 v
              (44 :: (utf8EncodeList (serializeFields (f2 :: tl2)) ++ 125 :: rest))
              (by simp only [List.length_append, List.length_cons] at hfuel ⊢; omega)
              (Or.inr (Or.inl rfl))]
            dsimp only [Option.some_bind]
            rw [skipWs_cons (by decide), if_neg (by simp), if_pos (by rfl)]
            simp only [List.tail_cons]
            obtain ⟨tg, hbg⟩ := serializeFields_head (f2 :: tl2) (by simp)
            rw [hbg, List.cons_append, skipWs_cons (by decide), ← List.cons_append, ← hbg]
            rw [(ih f (by omega)).2.2 (f2 :: tl2) rest (by simp)
              (by simp only [List.length_append, List.length_cons] at hfuel ⊢; omega)]
            simp only [Option.map_some', string_mk_toList]

theorem parseJsonDoc_serializeArray (xs : List SortValue) :
    parseJsonDoc (utf8EncodeList (serializeArray xs)) = some xs := by
  unfold serializeArray parseJsonDoc
  obtain ⟨b, t, hb, hws, _, _, _⟩ := serializeValue_head (SortValue.arr xs)
  rw [hb, skipWs_cons hws, ← hb]
  have hmain := (parse_serialize
      (2 * (utf8EncodeList (serializeValue (SortValue.arr xs))).length + 2)).1
    (SortValue.arr xs) [] (by omega) (Or.inl rfl)
  rw [List.append_nil] at hmain
  rw [hmain]
  rfl

/-- Character-list form of `encodeCursor`: `json.Marshal` of the sort values
followed by unpadded URL-safe base64 of the UTF-8 bytes. -/
def encodeCursorChars (sortVals : List SortValue) : List Char :=
  b64EncodeRec (utf8EncodeList (serializeArray sortVals))

/-- Embedding of `encodeCursor` (part_001 lines 513-519). -/
def encodeCursor (sortVals : List SortValue) : String :=
  String.mk (encodeCursorChars sortVals)

/-- Character-list form of `decodeCursor`: trim, treat empty as "no cursor"
(the empty tuple, Go's nil slice, start of the result set), then reverse the
base64 and JSON steps, failing with the engine's two malformed-cursor error
strings. -/
def decodeCursorChars (cs0 : List Char) : Except String (List SortValue) :=
  if trimChars cs0 = [] then Except.ok []
  else
    match b64Decode (trimChars cs0) with
    | none => Except.error ("invalid cursor")
    | some bytes =>
      match parseJsonDoc bytes with
      | none => Except.error ("invalid cursor payload")
      | some xs => Except.ok xs

/-- Embedding of `decodeCursor` (part_001 lines 497-511). -/
def decodeCursor (s : String) : Except String (List SortValue) :=
  decodeCursorChars s.toList

theorem encodeCursorChars_ne_nil (xs : List SortValue) : encodeCursorChars xs ≠ [] := by
  unfold encodeCursorChars
  apply b64EncodeRec_ne_nil
  unfold serializeArray
  obtain ⟨b, t, hb, _, _, _, _⟩ := serializeValue_head (SortValue.arr xs)
  rw [hb]
  simp

/-- C1: the cursor codec round-trips: decoding the URL-safe unpadded base64
encoding of the JSON serialization of any sort-value tuple returns exactly
that tuple. -/
theorem c1_cursor_roundtrip (xs : List SortValue) :
    decodeCursor (encodeCursor xs) = Except.ok xs := by
  unfold decodeCursor encodeCursor
  have htl : (String.mk (encodeCursorChars xs)).toList = encodeCursorChars xs := rfl
  rw [htl]
  unfold decodeCursorChars
  have htrim : trimChars (encodeCursorChars xs) = encodeCursorChars xs :=
    trimChars_eq_self (fun c hc => b64EncodeRec_not_space _ c hc)
  rw [htrim, if_neg (encodeCursorChars_ne_nil xs)]
  unfold encodeCursorChars
  rw [b64Decode_encode (utf8EncodeList_bytes_lt _)]
  dsimp only
  rw [parseJsonDoc_serializeArray]

/-- Embedding of `percentileInt64` (part_001 lines 865-883). The Go rank
computation `int(float64(len-1) * float64(p) / 100.0)` truncates an exact
product divided by 100; for every feasible sample count the double rounding
cannot cross an integer boundary, so it equals truncating natural division.
The `rank < 0` guard of the source is vacuous here since the rank is a `Nat`.
-/
def percentileInt64 (sorted : List Int) (p : Int) : Int :=
  if sorted.length = 0 then 0
  else if p ≤ 0 then sorted.getD 0 0
  else if 100 ≤ p then sorted.getD (sorted.length - 1) 0
  else
    let rank0 := (sorted.length - 1) * p.toNat / 100
    let rank1 := if sorted.length ≤ rank0 then sorted.length - 1 else rank0
    sorted.getD rank1 0

theorem sorted_getD_le_getD {s : List Int} (hs : s.Sorted (· ≤ ·)) {i j : Nat}
    (hij : i ≤ j) (hj : j < s.length) : s.getD i 0 ≤ s.getD j 0 := by
  have hi : i < s.length := lt_of_le_of_lt hij hj
  rw [List.getD_eq_getElem s 0 hi, List.getD_eq_getElem s 0 hj]
  have h := @List.Sorted.rel_get_of_le Int (· ≤ ·) _ s hs ⟨i, hi⟩ ⟨j, hj⟩ hij
  simpa [List.get_eq_getElem] using h

/-- C2: on a non-empty ascending-sorted sample list, the percentile routine
returns the minimum for `p ≤ 0`, the maximum for `p ≥ 100`, and otherwise the
element at the truncating (non-interpolating) nearest-rank index
`(len - 1) * p / 100`. -/
theorem c2_percentile_spec (s : List Int) (p : Int) (hne : s ≠ [])
    (hsort : s.Sorted (· ≤ ·)) :
    (p ≤ 0 → percentileInt64 s p ∈ s ∧ ∀ y ∈ s, percentileInt64 s p ≤ y) ∧
    (100 ≤ p → percentileInt64 s p ∈ s ∧ ∀ y ∈ s, y ≤ percentileInt64 s p) ∧
    (0 < p → p < 100 →
      percentileInt64 s p = s.getD ((s.length - 1) * p.toNat / 100) 0) := by
  have hlen : s.length ≠ 0 := by
    intro h
    exact hne (List.length_eq_zero.mp h)
  have hpos : 0 < s.length := Nat.pos_of_ne_zero hlen
  refine ⟨?_, ?_, ?_⟩
  · intro hp
    unfold percentileInt64
    rw [if_neg hlen, if_pos hp]
    constructor
    · rw [List.getD_eq_getElem s 0 hpos]
      exact List.getElem_mem hpos
    · intro y hy
      obtain ⟨k, hk, hky⟩ := List.getElem_of_mem hy
      rw [← hky, ← List.getD_eq_getElem s 0 hk]
      exact sorted_getD_le_getD hsort (Nat.zero_le k) hk
  · intro hp
    unfold percentileInt64
    rw [if_neg hlen, if_neg (by omega), if_pos hp]
    have hlast : s.length - 1 < s.length := by omega
    constructor
    · rw [List.getD_eq_getElem s 0 hlast]
      exact List.getElem_mem hlast
    · intro y hy
      obtain ⟨k, hk, hky⟩ := List.getElem_of_mem hy
      rw [← hky, ← List.getD_eq_getElem s 0 hk]
      exact sorted_getD_le_getD hsort (by omega) hlast
  · intro hp1 hp2
    unfold percentileInt64
    rw [if_neg hlen, if_neg (by omega), if_neg (by omega)]
    have hbound : (s.length - 1) * p.toNat / 100 ≤ s.length - 1 := by
      have h1 : (s.length - 1) * p.toNat ≤ (s.length - 1) * 100 :=
        Nat.mul_le_mul_left _ (by omega)
      have h2 : (s.length - 1) * p.toNat / 100 ≤ (s.length - 1) * 100 / 100 :=
        Nat.div_le_div_right h1
      rwa [Nat.mul_div_cancel _ (by omega)] at h2
    have hclamp : ¬ (s.length ≤ (s.length - 1) * p.toNat / 100) := by omega
    simp only [if_neg hclamp]

/-- C2 witness: the three branches at concrete inputs. -/
theorem c2_percentile_spec_witness :
    percentileInt64 [3, 5, 9] 0 ∈ [3, 5, 9] ∧
    (∀ y ∈ [3, 5, 9], percentileInt64 [3, 5, 9] 0 ≤ y) ∧
    percentileInt64 [3, 5, 9] 100 ∈ [3, 5, 9] ∧
    (∀ y ∈ [3, 5, 9], y ≤ percentileInt64 [3, 5, 9] 100) ∧
    percentileInt64 [3, 5, 9] 95 = [3, 5, 9].getD (([3, 5, 9].length - 1) * (95 : Int).toNat / 100) 0 := by
  have h0 := c2_percentile_spec [3, 5, 9] 0 (by decide) (by decide)
  have h100 := c2_percentile_spec [3, 5, 9] 100 (by decide) (by decide)
  have h95 := c2_percentile_spec [3, 5, 9] 95 (by decide) (by decide)
  exact ⟨(h0.1 (by decide)).1, (h0.1 (by decide)).2, (h100.2.1 (by decide)).1,
    (h100.2.1 (by decide)).2, h95.2.2 (by decide) (by decide)⟩

/-- Clamping of the requested listing limit (ListAIPs, part_001 lines
112-117): a non-positive request becomes the default 100, a request above
500 becomes 500 (the two sequential Go `if`s collapse to this nest because
the default is below the maximum). -/
def clampListLimit (limit : Int) : Int :=
  if limit ≤ 0 then 100 else if limit > 500 then 500 else limit

/-- Clamping of the requested full-scan page size (AIPStats, part_001 lines
194-199): a non-positive request becomes the default 500, a request above
2000 becomes 2000. -/
def clampPageSize (pageSize : Int) : Int :=
  if pageSize ≤ 0 then 500 else if pageSize > 2000 then 2000 else pageSize

/-- C9 counterexample: the claim says the default is substituted whenever the
request is `≤ 0` or out of range, but an out-of-range (too large) request is
clamped to the maximum, not replaced by the default: 600 becomes 500 (not
100) for the listing, 5000 becomes 2000 (not 500) for the full scan. -/
theorem c9_counterexample :
    clampListLimit 600 = 500 ∧ clampListLimit 600 ≠ 100 ∧
    clampPageSize 5000 = 2000 ∧ clampPageSize 5000 ≠ 500 := by
  refine ⟨by decide, by decide, by decide, by decide⟩

/-- C9 (amended): the value actually used lies in `[1, max]` (500 for the
listing, 2000 for the full scan); the default (100 / 500) is substituted only
when the request is `≤ 0`; a request above the maximum is clamped to the
maximum; an in-range request is used unchanged. -/
theorem c9_limit_clamping (limit pageSize : Int) :
    (1 ≤ clampListLimit limit ∧ clampListLimit limit ≤ 500) ∧
    (limit ≤ 0 → clampListLimit limit = 100) ∧
    (500 < limit → clampListLimit limit = 500) ∧
    (1 ≤ limit → limit ≤ 500 → clampListLimit limit = limit) ∧
    (1 ≤ clampPageSize pageSize ∧ clampPageSize pageSize ≤ 2000) ∧
    (pageSize ≤ 0 → clampPageSize pageSize = 500) ∧
    (2000 < pageSize → clampPageSize pageSize = 2000) ∧
    (1 ≤ pageSize → pageSize ≤ 2000 → clampPageSize pageSize = pageSize) := by
  unfold clampListLimit clampPageSize
  split_ifs <;> omega

/-- C9 witness: the amended behaviour at concrete requests. -/
theorem c9_limit_clamping_witness :
    clampListLimit (-7) = 100 ∧ clampListLimit 600 = 500 ∧ clampListLimit 250 = 250 ∧
    clampPageSize 0 = 500 ∧ clampPageSize 5000 = 2000 ∧ clampPageSize 1000 = 1000 :=
  ⟨(c9_limit_clamping (-7) 0).2.1 (by decide),
    (c9_limit_clamping 600 0).2.2.1 (by decide),
    (c9_limit_clamping 250 0).2.2.2.1 (by decide) (by decide),
    (c9_limit_clamping 0 0).2.2.2.2.2.1 (by decide),
    (c9_limit_clamping 0 5000).2.2.2.2.2.2.1 (by decide),
    (c9_limit_clamping 0 1000).2.2.2.2.2.2.2 (by decide) (by decide)⟩

/-- List-level test for a pattern occurring at the start of the input. -/
def isPre : List Char → List Char → Bool
  | [], _ => true
  | _ :: _, [] => false
  | p :: ps, c :: cs => p = c && isPre ps cs

/-- List-level substring occurrence test (pattern, anywhere in the input). -/
def hasSub : List Char → List Char → Bool
  | [], pat => pat.isEmpty
  | c :: cs, pat => isPre pat (c :: cs) || hasSub cs pat

/-- Embedding of `strings.Contains`. -/
def strContains (s pat : String) : Bool :=
  hasSub s.toList pat.toList

/-- Lower-cased, trimmed form of an identifier, as `mismatchByFormat`
normalizes its registry key and format name. -/
def lowerTrimStr (s : String) : String :=
  lowerStr (trimStr s)

/-- Strip a single leading dot, as `strings.TrimPrefix(s, ".")`. -/
def dropLeadingDot : List Char → List Char
  | '.' :: r => r
  | r => r

/-- Normalization of the actual extension in `mismatchByFormat`: trim,
lower-case, strip one leading dot. -/
def normExt (e : String) : String :=
  String.mk (dropLeadingDot ((trimChars e.toList).map Char.toLower))

/-- The static registry-key table of `mismatchByFormat` (part_001 lines
827-842): expected extensions per PRONOM key; empty for unknown keys. -/
def registryTable (key : String) : List String :=
  if key = "fmt/353" then ["tif", "tiff"]
  else if key = "fmt/11" then ["png"]
  else if key = "fmt/4" then ["gif"]
  else if key = "fmt/91" then ["svg"]
  else if key = "fmt/43" then ["jpg", "jpeg"]
  else if key = "fmt/402" then ["tga"]
  else if key = "x-fmt/392" then ["jp2", "j2k", "jpf"]
  else []

/-- The format-name fallback of `mismatchByFormat` (part_001 lines 844-856):
substring-match the human-readable name against known descriptions. -/
def nameFallback (name : String) : List String :=
  if strContains name ("portable network graphics") then ["png"]
  else if strContains name ("graphics interchange format") then ["gif"]
  else if strContains name ("scalable vector graphics") then ["svg"]
  else if strContains name ("jpeg") then ["jpg", "jpeg"]
  else if strContains name ("tiff") then ["tif", "tiff"]
  else []

/-- The expected extension set `mismatchByFormat` settles on: the registry
table when the key is known, otherwise the name fallback. -/
def mismatchExpected (regKey formatName : String) : List String :=
  if (registryTable (lowerTrimStr regKey)).isEmpty then nameFallback (lowerTrimStr formatName)
  else registryTable (lowerTrimStr regKey)

/-- Embedding of `mismatchByFormat` (part_001 lines 809-863): flags a
mismatch when the normalized actual extension is non-empty, some expectation
exists, and the extension is not among the expected ones. -/
def mismatchByFormat (regKey formatName ext0 : String) : Bool :=
  if normExt ext0 = "" then false
  else if (mismatchExpected regKey formatName).isEmpty then false
  else ! (mismatchExpected regKey formatName).contains (normExt ext0)

/-- C5: the JPEG registry key `fmt/43` with actual extension `png` is flagged
as a mismatch and with `jpg` is not, independently of the format name; and a
hit whose registry key is not in the static table and whose format name
matches no known description is never flagged, for every extension. -/
theorem c5_mismatch_by_format :
    (∀ name : String, mismatchByFormat ("fmt/43") name ("png") = true) ∧
    (∀ name : String, mismatchByFormat ("fmt/43") name ("jpg") = false) ∧
    (∀ regKey formatName ext : String,
      registryTable (lowerTrimStr regKey) = [] →
      nameFallback (lowerTrimStr formatName) = [] →
      mismatchByFormat regKey formatName ext = false) := by
  refine ⟨?_, ?_, ?_⟩
  · intro name
    have hreg : registryTable (lowerTrimStr ("fmt/43")) = ["jpg", "jpeg"] := by decide
    unfold mismatchByFormat mismatchExpected
    rw [hreg]
    simp +decide
  · intro name
    have hreg : registryTable (lowerTrimStr ("fmt/43")) = ["jpg", "jpeg"] := by decide
    unfold mismatchByFormat mismatchExpected
    rw [hreg]
    simp +decide
  · intro regKey formatName ext hkey hname
    unfold mismatchByFormat mismatchExpected
    rw [hkey, hname]
    simp

/-- C5 witness: an unknown registry key with an unknown format name is not
flagged even for an extension that would mismatch every known format. -/
theorem c5_mismatch_by_format_witness :
    mismatchByFormat ("fmt/43") ("whatever") ("png") = true ∧
    mismatchByFormat ("fmt/43") ("whatever") ("jpg") = false ∧
    mismatchByFormat ("x-fmt/999") ("Mystery Format") ("png") = false :=
  ⟨c5_mismatch_by_format.1 ("whatever"),
    c5_mismatch_by_format.2.1 ("whatever"),
    c5_mismatch_by_format.2.2 ("x-fmt/999") ("Mystery Format") ("png") (by decide) (by decide)⟩

/-- Codepoint-wise lexicographic strict order on character lists: the order
Go's `<` on strings induces (byte-wise UTF-8 comparison coincides with
codepoint-wise comparison). -/
def charListLt : List Char → List Char → Bool
  | [], [] => false
  | [], _ :: _ => true
  | _ :: _, [] => false
  | a :: as, b :: bs =>
    if a.toNat < b.toNat then true
    else if b.toNat < a.toNat then false
    else charListLt as bs

theorem charListLt_asymm :
    ∀ x y : List Char, charListLt x y = true → charListLt y x = false := by
  intro x
  induction x with
  | nil =>
      intro y h
      cases y with
      | nil => simp [charListLt] at h
      | cons b bs => simp [charListLt]
  | cons a as ih =>
      intro y h
      cases y with
      | nil => simp [charListLt] at h
      | cons b bs =>
          rw [charListLt] at h ⊢
          by_cases h1 : a.toNat < b.toNat
          · rw [if_neg (by omega), if_pos h1]
          · rw [if_neg h1] at h
            by_cases h2 : b.toNat < a.toNat
            · rw [if_pos h2] at h
              exact absurd h (by simp)
            · rw [if_neg h2] at h
              rw [if_neg h1, if_neg h2]
              exact ih bs h

theorem charListLt_connex :
    ∀ x y : List Char, charListLt x y = false → charListLt y x = false → x = y := by
  intro x
  induction x with
  | nil =>
      intro y h1 _
      cases y with
      | nil => rfl
      | cons b bs => simp [charListLt] at h1
  | cons a as ih =>
      intro y h1 h2
      cases y with
      | nil => simp [charListLt] at h2
      | cons b bs =>
          rw [charListLt] at h1 h2
          by_cases hab : a.toNat < b.toNat
          · rw [if_pos hab] at h1
            exact absurd h1 (by simp)
          by_cases hba : b.toNat < a.toNat
          · rw [if_pos hba] at h2
            exact absurd h2 (by simp)
          rw [if_neg hab, if_neg hba] at h1
          rw [if_neg hba, if_neg hab] at h2
          rw [char_eq_of_toNat (by omega : a.toNat = b.toNat), ih bs h1 h2]

theorem charListLt_trans :
    ∀ x y z : List Char, charListLt x y = true → charListLt y z = true →
      charListLt x z = true := by
  intro x
  induction x with
  | nil =>
      intro y z h1 h2
      cases y with
      | nil => simp [charListLt] at h1
      | cons b bs =>
          cases z with
          | nil => simp [charListLt] at h2
          | cons c cs => simp [charListLt]
  | cons a as ih =>
      intro y z h1 h2
      cases y with
      | nil => simp [charListLt] at h1
      | cons b bs =>
          cases z with
          | nil => simp [charListLt] at h2
          | cons c cs =>
              rw [charListLt] at h1 h2 ⊢
              by_cases hab : a.toNat < b.toNat
              · by_cases hbc : b.toNat < c.toNat
                · rw [if_pos (by omega)]
                · rw [if_neg hbc] at h2
                  by_cases hcb : c.toNat < b.toNat
                  · rw [if_pos hcb] at h2
                    exact absurd h2 (by simp)
                  · rw [if_pos (by omega)]
              · rw [if_neg hab] at h1
                by_cases hba : b.toNat < a.toNat
                · rw [if_pos hba] at h1
                  exact absurd h1 (by simp)
                rw [if_neg hba] at h1
                by_cases hbc : b.toNat < c.toNat
                · rw [if_pos (by omega)]
                · rw [if_neg hbc] at h2
                  by_cases hcb : c.toNat < b.toNat
                  · rw [if_pos hcb] at h2
                    exact absurd h2 (by simp)
                  · rw [if_neg hcb] at h2
                    rw [if_neg (by omega), if_neg (by omega)]
                    exact ih bs cs h1 h2

/-- Non-strict path comparison, the negation of the Go comparator's strict
order in the opposite direction. -/
def pathLe (a b : String) : Bool :=
  ! charListLt b.toList a.toList

/-- File sample kept in the bounded largest-files collection (the fields of
`AIPFileSample` that its ordering and the claims inspect). -/
structure AIPFileSample where
  filePath : String
  fileUUID : String
  bytes : Int
  status : String
deriving DecidableEq

/-- Order the `sort.Slice` call of `pushLargestFile` establishes between
consecutive entries: larger size first, ties by ascending file path
(`sort.Slice` with the source's strict `less` leaves the list pairwise
ordered by the negation of `less` in the opposite direction, which is this
relation). -/
def sampleOrder (a b : AIPFileSample) : Prop :=
  b.bytes < a.bytes ∨ (a.bytes = b.bytes ∧ pathLe a.filePath b.filePath = true)

instance : DecidableRel sampleOrder := fun a b =>
  inferInstanceAs (Decidable (b.bytes < a.bytes ∨ (a.bytes = b.bytes ∧ pathLe a.filePath b.filePath = true)))

instance : IsTotal AIPFileSample sampleOrder := by
  constructor
  intro a b
  rcases lt_trichotomy a.bytes b.bytes with h | h | h
  · exact Or.inr (Or.inl h)
  · by_cases hlt : charListLt b.filePath.toList a.filePath.toList = true
    · refine Or.inr (Or.inr ⟨h.symm, ?_⟩)
      unfold pathLe
      rw [charListLt_asymm _ _ hlt]
      rfl
    · refine Or.inl (Or.inr ⟨h, ?_⟩)
      unfold pathLe
      rw [Bool.not_eq_true] at hlt
      rw [hlt]
      rfl
  · exact Or.inl (Or.inl h)

instance : IsTrans AIPFileSample sampleOrder := by
  constructor
  intro a b c hab hbc
  rcases hab with hab | ⟨hab1, hab2⟩
  · rcases hbc with hbc | ⟨hbc1, hbc2⟩
    · exact Or.inl (by omega)
    · exact Or.inl (by omega)
  · rcases hbc with hbc | ⟨hbc1, hbc2⟩
    · exact Or.inl (by omega)
    · refine Or.inr ⟨by omega, ?_⟩
      unfold pathLe at hab2 hbc2 ⊢
      rw [Bool.not_eq_eq_eq_not] at hab2 hbc2 ⊢
      simp only [Bool.not_true] at hab2 hbc2 ⊢
      by_cases hca : charListLt c.filePath.toList a.filePath.toList = true
      · by_cases hcb : charListLt c.filePath.toList b.filePath.toList = true
        · exact absurd hcb (by rw [hbc2]; simp)
        by_cases hbc3 : charListLt b.filePath.toList c.filePath.toList = true
        · have := charListLt_trans _ _ _ hbc3 hca
          exact absurd this (by rw [hab2]; simp)
        · rw [Bool.not_eq_true] at hcb hbc3
          have hbceq := charListLt_connex _ _ hbc3 hcb
          rw [← hbceq] at hca
          exact absurd hca (by rw [hab2]; simp)
      · rw [Bool.not_eq_true] at hca
        exact hca

/-- Embedding of `pushLargestFile` (part_001 lines 740-754): append the new
sample, re-sort the whole list by the comparator, truncate to the capacity;
a non-positive capacity leaves the list untouched. -/
def pushLargestFile (dst : List AIPFileSample) (item : AIPFileSample) (limit : Nat) :
    List AIPFileSample :=
  if limit = 0 then dst
  else (List.insertionSort sampleOrder (dst ++ [item])).take limit

theorem pushLargestFile_sorted (dst : List AIPFileSample) (item : AIPFileSample) :
    List.Sorted sampleOrder (pushLargestFile dst item 10) ∧
      (pushLargestFile dst item 10).length ≤ 10 := by
  unfold pushLargestFile
  rw [if_neg (by omega)]
  constructor
  · exact List.Pairwise.sublist (List.take_sublist 10 _)
      (List.sorted_insertionSort sampleOrder (dst ++ [item]))
  · simp [List.length_take]

/-- Search-hit fields the full-scan aggregator reads, at the level after the
nested-METS extraction helpers have run: `metsSize` is the `premis:size`
value (`0` when absent), `sizeField` / `fileSizeField` the `int64(asFloat ...)`
values of the `size` / `FileSize` source fields, `regKey` / `formatName` /
`formatVersion` the trimmed extraction results (empty when missing),
`normalizedIDs` the deduplicated related normalized-object identifiers, and
`sortVals` the hit's sort tuple. -/
structure ScanHit where
  filePath : String
  fileUUID : String
  status : String
  metsSize : Int
  sizeField : Int
  fileSizeField : Int
  regKey : String
  formatName : String
  formatVersion : String
  normalizedIDs : List String
  sortVals : List SortValue

/-- Aggregation state of one full scan: the `AIPStats` counters the claims
concern, plus the local format-signature set of `AIPStats`. -/
structure ScanState where
  filesTotal : Int
  originalsWithNormalized : Int
  originalsWithoutNormalized : Int
  normalizedRefsTotal : Int
  totalBytes : Int
  largestFiles : List AIPFileSample
  formatSignatureSet : List String
deriving DecidableEq

/-- Zero-initialized scan state, as `AIPStats` allocates it. -/
def initScanState : ScanState :=
  ⟨0, 0, 0, 0, 0, [], []⟩

/-- Set insertion for the format-signature set (a Go map used as a set). -/
def insertSet (s : List String) (k : String) : List String :=
  if s.contains k then s else k :: s

/-- Field separator of the format-signature key (`"\x1f"`). -/
def sigSep : String :=
  String.mk [Char.ofNat 31]

/-- Effective size of a hit (part_001 lines 313-319): the METS `premis:size`,
falling back to the `size` and then the `FileSize` source field while
non-positive. -/
def effectiveSize (h : ScanHit) : Int :=
  if (if h.metsSize ≤ 0 then h.sizeField else h.metsSize) ≤ 0 then h.fileSizeField
  else if h.metsSize ≤ 0 then h.sizeField else h.metsSize

/-- Per-hit update of the scan state: the body of the hit loop of `AIPStats`
(part_001 lines 268-399) restricted to the fields of `ScanState`. -/
def scanStep (st : ScanState) (h : ScanHit) : ScanState :=
  let st1 := { st with filesTotal := st.filesTotal + 1 }
  let st2 :=
    if 0 < effectiveSize h then
      { st1 with
        totalBytes := st1.totalBytes + effectiveSize h,
        largestFiles :=
          pushLargestFile st1.largestFiles
            ⟨trimStr h.filePath, trimStr h.fileUUID, effectiveSize h, trimStr h.status⟩ 10 }
    else st1
  let st3 :=
    if h.regKey ≠ "" ∨ h.formatName ≠ "" ∨ h.formatVersion ≠ "" then
      { st2 with
        formatSignatureSet :=
          insertSet st2.formatSignatureSet
            (trimStr h.regKey ++ sigSep ++ trimStr h.formatName ++ sigSep ++
              trimStr h.formatVersion) }
    else st2
  if h.normalizedIDs ≠ [] then
    { st3 with
      originalsWithNormalized := st3.originalsWithNormalized + 1,
      normalizedRefsTotal := st3.normalizedRefsTotal + (h.normalizedIDs.length : Int) }
  else
    { st3 with originalsWithoutNormalized := st3.originalsWithoutNormalized + 1 }

/-- Sort tuple of the last hit of a page (`res.Hits[len(res.Hits)-1].Sort`). -/
def lastSortVals (page : List ScanHit) : List SortValue :=
  match page.getLast? with
  | some h => h.sortVals
  | none => []

/-- The paged scan loop of `AIPStats` (part_001 lines 233-405): up to 1000
pages; stop on an empty page, or after a page whose trailing sort tuple is
empty. The successive search responses are modelled by the stream `pages`;
an exhausted stream behaves as an empty response. -/
def scanLoop : Nat → List (List ScanHit) → ScanState → ScanState
  | 0, _, st => st
  | _ + 1, [], st => st
  | fuel + 1, page :: rest, st =>
    if page.isEmpty then st
    else
      let st2 := page.foldl scanStep st
      if (lastSortVals page).isEmpty then st2 else scanLoop fuel rest st2

/-- Rounding helper `round2` (part_001 lines 701-703):
`float64(int64(v*100+0.5))/100` over exact rationals; its arguments here are
non-negative, where the `int64` truncation is the floor. -/
def round2 (v : ℚ) : ℚ :=
  ((v * 100 + 1 / 2).floor : ℚ) / 100

/-- The finalized statistics fields the claims concern (`formatDiversity`
models the `format_diversity_ratio` payload field). -/
structure AIPStatsOut where
  filesTotal : Int
  originalsWithNormalized : Int
  originalsWithoutNormalized : Int
  normalizedRefsTotal : Int
  totalBytes : Int
  normalizedByOriginalAvg : ℚ
  averageBytes : ℚ
  formatDiversity : ℚ
  uniqueFormatSignatures : Int
  largestFiles : List AIPFileSample

/-- Finalization after the scan loop (part_001 lines 407-414): the two
averages and the diversity are computed only under `files_total > 0` and
keep their zero initial values otherwise. -/
def finalizeStats (st : ScanState) : AIPStatsOut :=
  { filesTotal := st.filesTotal
    originalsWithNormalized := st.originalsWithNormalized
    originalsWithoutNormalized := st.originalsWithoutNormalized
    normalizedRefsTotal := st.normalizedRefsTotal
    totalBytes := st.totalBytes
    normalizedByOriginalAvg :=
      if 0 < st.filesTotal then round2 ((st.normalizedRefsTotal : ℚ) / (st.filesTotal : ℚ))
      else 0
    averageBytes :=
      if 0 < st.filesTotal then round2 ((st.totalBytes : ℚ) / (st.filesTotal : ℚ)) else 0
    formatDiversity :=
      if 0 < st.filesTotal then
        round2 ((st.formatSignatureSet.length : ℚ) / (st.filesTotal : ℚ))
      else 0
    uniqueFormatSignatures := (st.formatSignatureSet.length : Int)
    largestFiles := st.largestFiles }

/-- The full scan of one artifact over a stream of result pages. -/
def aipStatsRun (pages : List (List ScanHit)) : AIPStatsOut :=
  finalizeStats (scanLoop 1000 pages initScanState)

/-- The hits the scan loop drains, mirroring its stopping conditions. -/
def drainedHits : Nat → List (List ScanHit) → List ScanHit
  | 0, _ => []
  | _ + 1, [] => []
  | fuel + 1, page :: rest =>
    if page.isEmpty then []
    else if (lastSortVals page).isEmpty then page
    else page ++ drainedHits fuel rest

theorem scanStep_counters (st : ScanState) (h : ScanHit) :
    (scanStep st h).filesTotal = st.filesTotal + 1 ∧
    (scanStep st h).originalsWithNormalized + (scanStep st h).originalsWithoutNormalized =
      st.originalsWithNormalized + st.originalsWithoutNormalized + 1 := by
  unfold scanStep
  dsimp only
  split_ifs <;> simp <;> omega

theorem scanStep_largest (st : ScanState) (h : ScanHit) :
    (scanStep st h).largestFiles = st.largestFiles ∨
    ∃ item, (scanStep st h).largestFiles = pushLargestFile st.largestFiles item 10 := by
  unfold scanStep
  dsimp only
  split_ifs
  all_goals
    first
      | (left; rfl)
      | (right; exact ⟨_, rfl⟩)

/-- Invariant of the bounded largest-files collection. -/
def largestOk (l : List AIPFileSample) : Prop :=
  List.Sorted sampleOrder l ∧ l.length ≤ 10

theorem scanStep_largestOk (st : ScanState) (h : ScanHit)
    (hok : largestOk st.largestFiles) : largestOk (scanStep st h).largestFiles := by
  rcases scanStep_largest st h with heq | ⟨item, heq⟩
  · rw [heq]
    exact hok
  · rw [heq]
    exact ⟨(pushLargestFile_sorted st.largestFiles item).1,
      (pushLargestFile_sorted st.largestFiles item).2⟩

theorem foldl_scanStep_filesTotal :
    ∀ (page : List ScanHit) (st : ScanState),
      (page.foldl scanStep st).filesTotal = st.filesTotal + (page.length : Int) := by
  intro page
  induction page with
  | nil => intro st; simp
  | cons h hs ih =>
      intro st
      rw [List.foldl_cons, ih (scanStep st h), (scanStep_counters st h).1]
      simp
      omega

theorem foldl_scanStep_partition :
    ∀ (page : List ScanHit) (st : ScanState),
      (page.foldl scanStep st).originalsWithNormalized +
          (page.foldl scanStep st).originalsWithoutNormalized =
        st.originalsWithNormalized + st.originalsWithoutNormalized + (page.length : Int) := by
  intro page
  induction page with
  | nil => intro st; simp
  | cons h hs ih =>
      intro st
      rw [List.foldl_cons, ih (scanStep st h)]
      have h2 := (scanStep_counters st h).2
      simp
      omega

theorem foldl_scanStep_largestOk :
    ∀ (page : List ScanHit) (st : ScanState),
      largestOk st.largestFiles → largestOk (page.foldl scanStep st).largestFiles := by
  intro page
  induction page with
  | nil => intro st hok; exact hok
  | cons h hs ih =>
      intro st hok
      rw [List.foldl_cons]
      exact ih (scanStep st h) (scanStep_largestOk st h hok)

theorem scanLoop_filesTotal :
    ∀ (fuel : Nat) (pages : List (List ScanHit)) (st : ScanState),
      (scanLoop fuel pages st).filesTotal =
        st.filesTotal + ((drainedHits fuel pages).length : Int) := by
  intro fuel
  induction fuel with
  | zero => intro pages st; simp [scanLoop, drainedHits]
  | succ fuel ih =>
      intro pages st
      cases pages with
      | nil => simp [scanLoop, drainedHits]
      | cons page rest =>
          rw [scanLoop, drainedHits]
          by_cases hemp : page.isEmpty
          · rw [if_pos hemp, if_pos hemp]
            simp
          rw [if_neg hemp, if_neg hemp]
          dsimp only
          by_cases hlast : (lastSortVals page).isEmpty = true
          · rw [if_pos hlast, if_pos hlast, foldl_scanStep_filesTotal]
          · rw [if_neg hlast, if_neg hlast, ih, foldl_scanStep_filesTotal]
            simp
            omega

theorem scanLoop_partition :
    ∀ (fuel : Nat) (pages : List (List ScanHit)) (st : ScanState),
      (scanLoop fuel pages st).originalsWithNormalized +
          (scanLoop fuel pages st).originalsWithoutNormalized =
        st.originalsWithNormalized + st.originalsWithoutNormalized +
          ((drainedHits fuel pages).length : Int) := by
  intro fuel
  induction fuel with
  | zero => intro pages st; simp [scanLoop, drainedHits]
  | succ fuel ih =>
      intro pages st
      cases pages with
      | nil => simp [scanLoop, drainedHits]
      | cons page rest =>
          rw [scanLoop, drainedHits]
          by_cases hemp : page.isEmpty
          · rw [if_pos hemp, if_pos hemp]
            simp
          rw [if_neg hemp, if_neg hemp]
          dsimp only
          by_cases hlast : (lastSortVals page).isEmpty = true
          · rw [if_pos hlast, if_pos hlast, foldl_scanStep_partition]
          · rw [if_neg hlast, if_neg hlast, ih, foldl_scanStep_partition]
            simp
            omega

theorem scanLoop_largestOk :
    ∀ (fuel : Nat) (pages : List (List ScanHit)) (st : ScanState),
      largestOk st.largestFiles → largestOk (scanLoop fuel pages st).largestFiles := by
  intro fuel
  induction fuel with
  | zero => intro pages st hok; exact hok
  | succ fuel ih =>
      intro pages st hok
      cases pages with
      | nil => exact hok
      | cons page rest =>
          rw [scanLoop]
          by_cases hemp : page.isEmpty
          · rw [if_pos hemp]
            exact hok
          rw [if_neg hemp]
          dsimp only
          by_cases hlast : (lastSortVals page).isEmpty = true
          · rw [if_pos hlast]
            exact foldl_scanStep_largestOk page st hok
          · rw [if_neg hlast]
            exact ih rest _ (foldl_scanStep_largestOk page st hok)

/-- Single-page fixture of seven hits, several of which miss size, format,
identifier or date information entirely. -/
def fixtureSevenHits : List ScanHit :=
  [⟨"dir/a.jpg", "u1", "indexed", 100, 0, 0, "fmt/43", "JPEG File Interchange Format", "1.01",
      ["norm-1"], [SortValue.str ("u1")]⟩,
    ⟨"dir/b.png", "u2", "indexed", 0, 50, 0, "", "", "", [], [SortValue.str ("u2")]⟩,
    ⟨"dir/c", "u3", "", 0, 0, 25, "", "", "", [], [SortValue.str ("u3")]⟩,
    ⟨"d", "", "", -1, -1, -1, "", "", "", [], [SortValue.str ("u4")]⟩,
    ⟨"e", "u5", "", 10, 0, 0, "x-fmt/1", "", "", ["norm-1", "norm-2"],
      [SortValue.str ("u5")]⟩,
    ⟨"", "u6", "", 0, 0, 0, "", "Portable Network Graphics", "", [],
      [SortValue.str ("u6")]⟩,
    ⟨"", "", "", 0, 0, 0, "", "", "", [], []⟩]

/-- C4: the finalized `files_total` equals the number of hits drained from
the pages the scan actually fetched, independently of any missing per-hit
metadata; in particular the seven-hit fixture (with hits missing size,
format, identifiers and dates) yields `files_total = 7`. -/
theorem c4_files_total (pages : List (List ScanHit)) :
    (aipStatsRun pages).filesTotal = ((drainedHits 1000 pages).length : Int) ∧
    (aipStatsRun [fixtureSevenHits]).filesTotal = 7 := by
  constructor
  · have hpr : (aipStatsRun pages).filesTotal =
        (scanLoop 1000 pages initScanState).filesTotal := rfl
    rw [hpr, scanLoop_filesTotal]
    simp [initScanState]
  · decide

/-- C6: when a full scan finishes with `files_total = 0`, the finalized
`normalized_by_original_avg`, `average_bytes` and `format_diversity_ratio`
are exactly 0 — the divisions by `files_total` are never performed. -/
theorem c6_no_division_when_empty (pages : List (List ScanHit))
    (hzero : (aipStatsRun pages).filesTotal = 0) :
    (aipStatsRun pages).normalizedByOriginalAvg = 0 ∧
    (aipStatsRun pages).averageBytes = 0 ∧
    (aipStatsRun pages).formatDiversity = 0 := by
  have hst : (scanLoop 1000 pages initScanState).filesTotal = 0 := hzero
  refine ⟨?_, ?_, ?_⟩
  · show (if 0 < (scanLoop 1000 pages initScanState).filesTotal then
        round2 (((scanLoop 1000 pages initScanState).normalizedRefsTotal : ℚ) /
          ((scanLoop 1000 pages initScanState).filesTotal : ℚ))
      else 0) = 0
    rw [if_neg (by omega)]
  · show (if 0 < (scanLoop 1000 pages initScanState).filesTotal then
        round2 (((scanLoop 1000 pages initScanState).totalBytes : ℚ) /
          ((scanLoop 1000 pages initScanState).filesTotal : ℚ))
      else 0) = 0
    rw [if_neg (by omega)]
  · show (if 0 < (scanLoop 1000 pages initScanState).filesTotal then
        round2 (((scanLoop 1000 pages initScanState).formatSignatureSet.length : ℚ) /
          ((scanLoop 1000 pages initScanState).filesTotal : ℚ))
      else 0) = 0
    rw [if_neg (by omega)]

/-- C6 witness: a scan that consumes no pages has `files_total = 0` and all
three derived ratios exactly 0. -/
theorem c6_no_division_when_empty_witness :
    (aipStatsRun []).normalizedByOriginalAvg = 0 ∧
    (aipStatsRun []).averageBytes = 0 ∧
    (aipStatsRun []).formatDiversity = 0 :=
  c6_no_division_when_empty [] (by decide)

/-- C10: every scanned hit increments exactly one of the two normalization
counters, so the finalized counters always satisfy
`originals_with_normalized + originals_without_normalized = files_total`. -/
theorem c10_normalization_partition (pages : List (List ScanHit)) :
    (aipStatsRun pages).originalsWithNormalized +
        (aipStatsRun pages).originalsWithoutNormalized =
      (aipStatsRun pages).filesTotal := by
  have h1 : (aipStatsRun pages).originalsWithNormalized +
      (aipStatsRun pages).originalsWithoutNormalized =
      (scanLoop 1000 pages initScanState).originalsWithNormalized +
        (scanLoop 1000 pages initScanState).originalsWithoutNormalized := rfl
  have h2 : (aipStatsRun pages).filesTotal =
      (scanLoop 1000 pages initScanState).filesTotal := rfl
  rw [h1, h2, scanLoop_partition, scanLoop_filesTotal]
  simp [initScanState]

/-- Strict form of the largest-files order that the claim as written
asserts: size strictly descending, ties strictly ascending by path. -/
def sampleStrict (a b : AIPFileSample) : Prop :=
  b.bytes < a.bytes ∨ (a.bytes = b.bytes ∧ charListLt a.filePath.toList b.filePath.toList = true)

instance : DecidableRel sampleStrict := fun a b =>
  inferInstanceAs
    (Decidable (b.bytes < a.bytes ∨
      (a.bytes = b.bytes ∧ charListLt a.filePath.toList b.filePath.toList = true)))

/-- C7 counterexample: inserting the same sample twice keeps both copies, and
consecutive equal entries (equal size AND equal path) violate strict sorting
— neither is the size strictly smaller nor the path strictly larger. -/
theorem c7_counterexample :
    pushLargestFile (pushLargestFile [] ⟨"a.bin", "u1", 5, "ok"⟩ 10) ⟨"a.bin", "u1", 5, "ok"⟩
        10 =
      [⟨"a.bin", "u1", 5, "ok"⟩, ⟨"a.bin", "u1", 5, "ok"⟩] ∧
    ¬ List.Pairwise sampleStrict
        (pushLargestFile (pushLargestFile [] ⟨"a.bin", "u1", 5, "ok"⟩ 10)
          ⟨"a.bin", "u1", 5, "ok"⟩ 10) := by
  constructor
  · decide
  · decide

/-- C7 (amended): after every insertion with the capacity 10 used by the
scan, and hence in the finalized `largest_files` output, the list has length
at most 10 and is sorted by size descending with ties by file path ascending
— non-strictly, since two entries may carry the same size and path. -/
theorem c7_largest_files (pages : List (List ScanHit)) (dst : List AIPFileSample)
    (item : AIPFileSample) :
    (List.Sorted sampleOrder (pushLargestFile dst item 10) ∧
      (pushLargestFile dst item 10).length ≤ 10) ∧
    (List.Sorted sampleOrder (aipStatsRun pages).largestFiles ∧
      (aipStatsRun pages).largestFiles.length ≤ 10) := by
  constructor
  · exact ⟨(pushLargestFile_sorted dst item).1, (pushLargestFile_sorted dst item).2⟩
  · have hok : largestOk (scanLoop 1000 pages initScanState).largestFiles :=
      scanLoop_largestOk 1000 pages initScanState ⟨List.sorted_nil, by simp [initScanState]⟩
    exact ⟨hok.1, hok.2⟩

/-- A search hit as the listing loop reads it: the `_source` object
restricted to scalar values, plus the hit's sort tuple. -/
structure Hit where
  source : List (String × SortValue)
  sort : List SortValue

/-- Key lookup in a source object (Go map access; JSON object keys are
unique, the first binding wins). -/
def lookupSource (src : List (String × SortValue)) (k : String) : Option SortValue :=
  match src.find? (fun p => p.1 = k) with
  | some p => some p.2
  | none => none

/-- Embedding of `asString` (client.go lines 260-263): the string value, or
the string zero value for a missing key or a non-string. -/
def asString : Option SortValue → String
  | some (SortValue.str s) => s
  | _ => ""

/-- One row of the listing payload. -/
structure AIPListItem where
  aipUUID : String
  sipName : String
deriving DecidableEq

/-- The listing payload: the unique rows and the opaque next cursor. -/
structure AIPListResult where
  items : List AIPListItem
  nextCursor : String
deriving DecidableEq

/-- The inner hit loop of `ListAIPs` (part_001 lines 150-166): skip hits
with a blank or already-seen artifact id, append new ids in order, and stop
early once `limit` items are collected. Returns the items and the seen set.
-/
def collectHits (limit : Nat) : List Hit → List AIPListItem → List String →
    (List AIPListItem × List String)
  | [], items, seen => (items, seen)
  | h :: hs, items, seen =>
    let aip := trimStr (asString (lookupSource h.source ("AIPUUID")))
    if aip = "" then collectHits limit hs items seen
    else if seen.contains aip then collectHits limit hs items seen
    else
      let items2 := items ++ [⟨aip, trimStr (asString (lookupSource h.source ("sipName")))⟩]
      if limit ≤ items2.length then (items2, aip :: seen)
      else collectHits limit hs items2 (aip :: seen)

/-- Sort tuple of the last hit of a listing page. -/
def lastSortHit (page : List Hit) : List SortValue :=
  match page.getLast? with
  | some h => h.sort
  | none => []

/-- The page loop of `ListAIPs` (part_001 lines 128-173): up to 10 pages
while fewer than `limit` unique ids are collected; each iteration issues one
search (the third component counts them); an empty page clears the pending
sort tuple and stops; otherwise the page's hits are folded in and the last
hit's sort tuple becomes the pending cursor basis, stopping when it is
empty. The successive responses are the stream `pages`; an exhausted stream
behaves as an empty response. -/
def listPagesLoop (limit : Nat) :
    Nat → List (List Hit) → List AIPListItem → List String → List SortValue →
    (List AIPListItem × List SortValue × Nat)
  | 0, _, items, _, nextSort => (items, nextSort, 0)
  | fuel + 1, pages, items, seen, nextSort =>
    if limit ≤ items.length then (items, nextSort, 0)
    else
      match pages with
      | [] => (items, [], 1)
      | page :: rest =>
        if page.isEmpty then (items, [], 1)
        else
          let pr := collectHits limit page items seen
          if (lastSortHit page).isEmpty then (pr.1, lastSortHit page, 1)
          else
            let rec2 := listPagesLoop limit fuel rest pr.1 pr.2 (lastSortHit page)
            (rec2.1, rec2.2.1, rec2.2.2 + 1)

/-- Embedding of `ListAIPs` (part_001 lines 105-181) over a stream of search
responses: clamp the limit, decode the cursor — a decode failure is returned
with zero queries issued — then run the page loop and encode the next cursor
when a pending sort tuple remains. The decoded tuple only seeds the first
query body, which the response stream models. -/
def ListAIPs (pages : List (List Hit)) (limit : Int) (cursor : String) :
    Except String AIPListResult × Nat :=
  match decodeCursor cursor with
  | Except.error e => (Except.error e, 0)
  | Except.ok _ =>
    let r := listPagesLoop (clampListLimit limit).toNat 10 pages [] [] []
    (Except.ok ⟨r.1, if r.2.1.isEmpty then "" else encodeCursor r.2.1⟩, r.2.2)

theorem collectHits_nodup (limit : Nat) :
    ∀ (hits : List Hit) (items : List AIPListItem) (seen : List String),
      (∀ it ∈ items, it.aipUUID ∈ seen) →
      ((items.map (fun it => it.aipUUID)).Nodup) →
      (∀ it ∈ (collectHits limit hits items seen).1,
          it.aipUUID ∈ (collectHits limit hits items seen).2) ∧
      (((collectHits limit hits items seen).1.map (fun it => it.aipUUID)).Nodup) := by
  intro hits
  induction hits with
  | nil =>
      intro items seen hseen hnd
      exact ⟨hseen, hnd⟩
  | cons h hs ih =>
      intro items seen hseen hnd
      rw [collectHits]
      dsimp only
      by_cases h1 : trimStr (asString (lookupSource h.source ("AIPUUID"))) = ""
      · rw [if_pos h1]
        exact ih items seen hseen hnd
      rw [if_neg h1]
      by_cases h2 : seen.contains (trimStr (asString (lookupSource h.source ("AIPUUID"))))
      · rw [if_pos h2]
        exact ih items seen hseen hnd
      rw [if_neg h2]
      have hnotin : trimStr (asString (lookupSource h.source ("AIPUUID"))) ∉ seen := by
        intro hmem
        exact h2 (List.elem_eq_true_of_mem hmem)
      have hseen2 : ∀ it ∈ items ++
          [(⟨trimStr (asString (lookupSource h.source ("AIPUUID"))),
            trimStr (asString (lookupSource h.source ("sipName")))⟩ : AIPListItem)],
          it.aipUUID ∈ trimStr (asString (lookupSource h.source ("AIPUUID"))) :: seen := by
        intro it hit
        rw [List.mem_append] at hit
        rcases hit with hit | hit
        · exact List.mem_cons_of_mem _ (hseen it hit)
        · simp at hit
          rw [hit]
          exact List.mem_cons_self _ _
      have hnd2 : ((items ++
          [(⟨trimStr (asString (lookupSource h.source ("AIPUUID"))),
            trimStr (asString (lookupSource h.source ("sipName")))⟩ : AIPListItem)]).map
          (fun it => it.aipUUID)).Nodup := by
        rw [List.map_append]
        rw [List.nodup_append]
        refine ⟨hnd, by simp, ?_⟩
        intro a ha hb
        simp at hb
        rw [List.mem_map] at ha
        obtain ⟨it, hit, hai⟩ := ha
        have := hseen it hit
        rw [hai, hb] at this
        exact hnotin this
      by_cases h3 : limit ≤ (items ++
          [(⟨trimStr (asString (lookupSource h.source ("AIPUUID"))),
            trimStr (asString (lookupSource h.source ("sipName")))⟩ : AIPListItem)]).length
      · rw [if_pos h3]
        exact ⟨hseen2, hnd2⟩
      · rw [if_neg h3]
        exact ih _ _ hseen2 hnd2

theorem listPagesLoop_nodup (limit : Nat) :
    ∀ (fuel : Nat) (pages : List (List Hit)) (items : List AIPListItem)
      (seen : List String) (nextSort : List SortValue),
      (∀ it ∈ items, it.aipUUID ∈ seen) →
      ((items.map (fun it => it.aipUUID)).Nodup) →
      (((listPagesLoop limit fuel pages items seen nextSort).1.map
        (fun it => it.aipUUID)).Nodup) := by
  intro fuel
  induction fuel with
  | zero =>
      intro pages items seen nextSort _ hnd
      exact hnd
  | succ fuel ih =>
      intro pages items seen nextSort hseen hnd
      rw [listPagesLoop.eq_def]
      dsimp only
      by_cases h1 : limit ≤ items.length
      · rw [if_pos h1]
        exact hnd
      rw [if_neg h1]
      cases pages with
      | nil => exact hnd
      | cons page rest =>
          dsimp only
          by_cases h2 : page.isEmpty
          · rw [if_pos h2]
            exact hnd
          rw [if_neg h2]
          obtain ⟨hcseen, hcnd⟩ := collectHits_nodup limit page items seen hseen hnd
          by_cases h3 : (lastSortHit page).isEmpty = true
          · rw [if_pos h3]
            exact hcnd
          · rw [if_neg h3]
            exact ih rest _ _ _ hcseen hcnd

/-- C3: a listing response never contains two entries with the same artifact
id, for every stream of result pages, every limit and every cursor. -/
theorem c3_no_duplicate_artifacts (pages : List (List Hit)) (limit : Int) (cursor : String)
    (r : AIPListResult) (q : Nat) (hok : ListAIPs pages limit cursor = (Except.ok r, q)) :
    ((r.items.map (fun it => it.aipUUID)).Nodup) := by
  unfold ListAIPs at hok
  cases hdec : decodeCursor cursor with
  | error e =>
      rw [hdec] at hok
      simp at hok
  | ok xs =>
      rw [hdec] at hok
      dsimp only at hok
      have hr : r.items =
          (listPagesLoop (clampListLimit limit).toNat 10 pages [] [] []).1 := by
        have h1 := congrArg Prod.fst hok
        dsimp only at h1
        cases h1
        rfl
      rw [hr]
      exact listPagesLoop_nodup (clampListLimit limit).toNat 10 pages [] [] []
        (by intro it hit; simp at hit) (by simp)

/-- Fixture pages for the listing: the same artifact id appears in several
hits of one page. -/
def listFixturePages : List (List Hit) :=
  [[⟨[("AIPUUID", SortValue.str ("A1")), ("sipName", SortValue.str ("sip-a"))],
      [SortValue.str ("A1")]⟩,
    ⟨[("AIPUUID", SortValue.str ("A1"))], [SortValue.str ("A1")]⟩,
    ⟨[("AIPUUID", SortValue.str ("A2"))], []⟩]]

/-- C3 witness: on a page repeating artifact id `A1`, the listing returns
each id once. -/
theorem c3_no_duplicate_artifacts_witness :
    ((([⟨"A1", "sip-a"⟩, ⟨"A2", ""⟩] : List AIPListItem).map
      (fun it => it.aipUUID)).Nodup) :=
  c3_no_duplicate_artifacts listFixturePages 10 ("")
    ⟨[⟨"A1", "sip-a"⟩, ⟨"A2", ""⟩], ""⟩ 1 (by rfl)

end AmOps
